import Mathlib

/-!
Verification development for the schedule aggregation and windowing engine
of the HEMS persona reporter (`app/main.py`).

Embedding conventions:
* Python floats are modelled as `ℚ` (the claims under study do not depend on
  binary floating-point rounding; `1e-9` is modelled as `1/10^9`, `0.25` as `1/4`).
* A `datetime` is modelled as a rational number of seconds since a fixed
  midnight-aligned epoch; `timedelta(hours=h)` is a shift by `h * 3600` seconds.
* The second-precision key `slot.timestamp.strftime("%Y-%m-%d %H:%M:%S")` is a
  calendar rendering of the floor of the timestamp to whole seconds, and that
  rendering is injective on whole seconds, so the key is modelled as `⌊t⌋ : ℤ`.
* A Python `dict` is modelled as an association list in insertion order:
  lookup returns the first (unique) matching key, assignment overwrites in
  place, and a fresh key is appended at the end.
* `round(x, 3)` is modelled as `round3`; the claims never depend on the
  behaviour of `round` at exact ties, only on both sides being rounded by the
  same function.
-/

namespace Gloiu

/-- One `(load name, power value)` entry of a slot (`DataItem` in `app/main.py`). -/
structure DataItem where
  name : String
  value : ℚ
deriving DecidableEq, Repr

/-- One schedule slot: a timestamp plus its load entries (`ScheduleSlot`). -/
structure ScheduleSlot where
  timestamp : ℚ
  data : List DataItem
deriving DecidableEq, Repr

/-! ### Python dict operations on association lists -/

/-- Lookup of the first entry with the given key (`d[k]` / `d.get(k)`). -/
def dictFind {α β : Type} [DecidableEq α] : List (α × β) → α → Option β
  | [], _ => none
  | p :: m, k => if p.1 = k then some p.2 else dictFind m k

/-- Lookup with default (`d.get(k, dflt)`). -/
def dictGetD {α β : Type} [DecidableEq α] (m : List (α × β)) (k : α) (d : β) : β :=
  (dictFind m k).getD d

/-- Key membership test (`k in d`). -/
def dictMem {α β : Type} [DecidableEq α] : List (α × β) → α → Bool
  | [], _ => false
  | p :: m, k => if p.1 = k then true else dictMem m k

/-- Assignment `d[k] = v`: overwrite in place, or append a fresh key. -/
def dictInsert {α β : Type} [DecidableEq α] : List (α × β) → α → β → List (α × β)
  | [], k, v => [(k, v)]
  | p :: m, k, v => if p.1 = k then (k, v) :: m else p :: dictInsert m k v

/-- Key list of a dict. -/
def dictKeys {α β : Type} (m : List (α × β)) : List α := m.map Prod.fst

/-- Membership in a list of strings, as used for `name in present`. -/
def memStr : List String → String → Bool
  | [], _ => false
  | s :: l, n => if s = n then true else memStr l n

/-! ### Timestamp formatting -/

/-- The second-precision timestamp key: `strftime("%Y-%m-%d %H:%M:%S")`
rendered as the whole-second instant it denotes. -/
def fmtKey (t : ℚ) : ℤ := ⌊t⌋

/-- Hour-of-day of a whole-second key, as extracted by `int(ts[11:13])`. -/
def hourOfKey (k : ℤ) : ℤ := (k % 86400) / 3600

/-- Hour-of-day of a timestamp (`%H` in `strftime`). -/
def hourOfTs (t : ℚ) : ℕ := (hourOfKey ⌊t⌋).toNat

/-- Minute-of-hour of a timestamp (`%M` in `strftime`). -/
def minuteOfTs (t : ℚ) : ℕ := ((⌊t⌋ % 3600) / 60).toNat

/-! ### Slot-interval inference (`_guess_slot_hours`) -/

/-- Guess the slot duration in hours from the gap between the first two
timestamps; default `0.25` h; positive gaps are clamped below by `1e-9`. -/
def _guess_slot_hours : List ScheduleSlot → ℚ
  | s0 :: s1 :: _ =>
    if 0 < s1.timestamp - s0.timestamp then
      max ((s1.timestamp - s0.timestamp) / 3600) (1 / 1000000000)
    else (1 : ℚ) / 4
  | _ => (1 : ℚ) / 4

/-! ### Aggregator (`compute_from_schedule`) -/

/-- Result bundle of `compute_from_schedule`. -/
structure AggOut where
  power_by_ts : List (ℤ × ℚ)
  energy_by_load : List (String × ℚ)
  total_kwh : ℚ
  peak_kw : ℚ
  peak_ts : List ℤ
deriving DecidableEq, Repr

/-- The tolerance `1e-9` used for peak ties. -/
def epsQ : ℚ := 1 / 1000000000

/-- Rounding to three decimal places, `round(x, 3)`. -/
def round3 (q : ℚ) : ℚ := ((round (q * 1000) : ℤ) : ℚ) / 1000

/-- Python `max(values)` for a possibly empty list, defaulting to `0`
(the code writes `max(...) if power_by_ts else 0.0`). -/
def listMax0 : List ℚ → ℚ
  | [] => 0
  | v :: vs => vs.foldl max v

/-- One `for it in slot.data` step: accumulate the slot power sum and the
per-load energy (`energy_by_load[it.name] = energy_by_load.get(it.name, 0.0)
+ val_kw * slot_h`). -/
def slotStep (slotH : ℚ) (acc : ℚ × List (String × ℚ)) (it : DataItem) :
    ℚ × List (String × ℚ) :=
  (acc.1 + it.value,
   dictInsert acc.2 it.name (dictGetD acc.2 it.name 0 + it.value * slotH))

/-- One `for slot in payload.schedule` step of the aggregator. -/
def aggStep (slotH : ℚ) (st : List (ℤ × ℚ) × List (String × ℚ))
    (slot : ScheduleSlot) : List (ℤ × ℚ) × List (String × ℚ) :=
  let r := slot.data.foldl (slotStep slotH) (0, st.2)
  (dictInsert st.1 (fmtKey slot.timestamp) r.1, r.2)

/-- The aggregator `compute_from_schedule`: per-timestamp power totals,
per-load energies, rounded day total, rounded peak and its tied timestamps. -/
def compute_from_schedule (payload : List ScheduleSlot) : AggOut :=
  let slotH := _guess_slot_hours payload
  let res := payload.foldl (aggStep slotH) ([], [])
  let peakVal := listMax0 (res.1.map Prod.snd)
  { power_by_ts := res.1
    energy_by_load := res.2
    total_kwh := round3 ((res.2.map Prod.snd).sum)
    peak_kw := round3 peakVal
    peak_ts := (res.1.filter fun kv => decide (|kv.2 - peakVal| < epsQ)).map Prod.fst }

/-- The energy-map effect of one slot's inner loop, taken on its own
(the interleaved fold `slotStep` projects onto this on its second
component). -/
def energyFold (sH : ℚ) : List DataItem → List (String × ℚ) → List (String × ℚ)
  | [], e => e
  | it :: ds, e =>
    energyFold sH ds (dictInsert e it.name (dictGetD e it.name 0 + it.value * sH))

/-- The energy-map effect of the whole aggregation pass. -/
def energyAll (sH : ℚ) : List ScheduleSlot → List (String × ℚ) → List (String × ℚ)
  | [], e => e
  | sl :: slots, e => energyAll sH slots (energyFold sH sl.data e)

/-- The unrounded peak (the local `peak_kw_val` of `compute_from_schedule`). -/
def peak_kw_val (payload : List ScheduleSlot) : ℚ :=
  listMax0 ((compute_from_schedule payload).power_by_ts.map Prod.snd)

/-! ### Hourly histogram (`build_24h_csv`) -/

/-- The `per_hour_Wh` table of `build_24h_csv`, as a function on hours.
The code seeds keys `0..23` and increments bucket `int(ts[11:13])` by
`p_kw * 0.25 * 1000.0`; the extracted hour always lies in `0..23`, so the
dict is faithfully a function that is zero outside the touched buckets. -/
def per_hour_Wh (pbt : List (ℤ × ℚ)) : ℤ → ℚ :=
  pbt.foldl (fun f kv =>
    Function.update f (hourOfKey kv.1) (f (hourOfKey kv.1) + kv.2 * 250))
    (fun _ => 0)

/-- Sum of the 24 hourly buckets. -/
def sumHourly (f : ℤ → ℚ) : ℚ := ∑ h in Finset.range 24, f (h : ℤ)

/-! ### Window builder (`load_windows_15m`) -/

/-- Load-name list of a slot (the set `{it.name for it in slot.data}`;
only membership is ever used). -/
def names (data : List DataItem) : List String := data.map DataItem.name

/-- Whether a load is present in a slot. -/
def presentB (slot : ScheduleSlot) (n : String) : Bool := memStr (names slot.data) n

/-- Close the listed open windows at instant `ts`
(`windows.setdefault(name, []).append((start, ts))`), in table order. -/
def wAppend : List (String × List (ℚ × ℚ)) → String → ℚ × ℚ →
    List (String × List (ℚ × ℚ))
  | [], n, v => [(n, [v])]
  | p :: m, n, v => if p.1 = n then (p.1, p.2 ++ [v]) :: m else p :: wAppend m n v

/-- Fold closing every `(name, start)` of the list into the windows dict. -/
def closeAll (ts : ℚ) : List (String × ℚ) → List (String × List (ℚ × ℚ)) →
    List (String × List (ℚ × ℚ))
  | [], w => w
  | p :: cl, w => closeAll ts cl (wAppend w p.1 (p.2, ts))

/-- Open-window table entries whose load is still present. -/
def stillOpen (pres : List String) (a : List (String × ℚ)) : List (String × ℚ) :=
  a.filter fun p => memStr pres p.1

/-- Open-window table entries whose load stopped being present. -/
def toClose (pres : List String) (a : List (String × ℚ)) : List (String × ℚ) :=
  a.filter fun p => !(memStr pres p.1)

/-- Open windows for newly present loads (`for it in slot.data: if it.name
not in active_start: active_start[it.name] = ts`). -/
def openPhase (ts : ℚ) : List DataItem → List (String × ℚ) → List (String × ℚ)
  | [], a => a
  | it :: ds, a =>
    openPhase ts ds (if dictMem a it.name then a else a ++ [(it.name, ts)])

/-- Main loop of `load_windows_15m`: close, open, and on the final slot close
everything still open at `ts + slot_h`. -/
def lw_aux (sH : ℚ) : List ScheduleSlot → List (String × List (ℚ × ℚ)) →
    List (String × ℚ) → List (String × List (ℚ × ℚ))
  | [], w, _ => w
  | slot :: rest, w, a =>
    let pres := names slot.data
    let w1 := closeAll slot.timestamp (toClose pres a) w
    let a1 := openPhase slot.timestamp slot.data (stillOpen pres a)
    match rest with
    | [] => closeAll (slot.timestamp + sH * 3600) a1 w1
    | q :: rest' => lw_aux sH (q :: rest') w1 a1

/-- `load_windows_15m`: contiguous `(start, end)` windows per load. -/
def load_windows_15m (payload : List ScheduleSlot) :
    List (String × List (ℚ × ℚ)) :=
  lw_aux (_guess_slot_hours payload) payload [] []

/-- The window list of one load (empty when the load has no key). -/
def winsOf (payload : List ScheduleSlot) (n : String) : List (ℚ × ℚ) :=
  dictGetD (load_windows_15m payload) n []

/-- Per-load projection of a slot: its timestamp and whether the load is
present (all the window builder ever observes about one load). -/
def projL (n : String) (slot : ScheduleSlot) : ℚ × Bool :=
  (slot.timestamp, presentB slot n)

/-- The per-load trace of the window-builder loop: walking the projected
`(timestamp, present)` list with the load's currently open start (if any).
`s3` is the final-slot extension in seconds (`slot_h * 3600`). `lw_aux`
computes exactly this on each load's key (see `lw_aux_getD`). -/
def lwLoad (s3 : ℚ) : List (ℚ × Bool) → Option ℚ → List (ℚ × ℚ)
  | [], _ => []
  | [(t, true)], some st => [(st, t + s3)]
  | [(t, true)], none => [(t, t + s3)]
  | [(t, false)], some st => [(st, t)]
  | [(_, false)], none => []
  | (_, true) :: q :: rest, some st => lwLoad s3 (q :: rest) (some st)
  | (t, true) :: q :: rest, none => lwLoad s3 (q :: rest) (some t)
  | (t, false) :: q :: rest, some st => (st, t) :: lwLoad s3 (q :: rest) none
  | (_, false) :: q :: rest, none => lwLoad s3 (q :: rest) none

/-! ### Display formatting (`fmt_range_pt`, `fmt_windows`) -/

/-- Two-digit zero-padded rendering used by `strftime` fields `%H` and `%M`. -/
def pad2 (n : ℕ) : String := if n < 10 then "0" ++ toString n else "" ++ toString n

/-- `fmt_range_pt`: `HHhMM–HHhMM` with an en-dash separator. -/
def fmt_range_pt (a b : ℚ) : String :=
  pad2 (hourOfTs a) ++ "h" ++ pad2 (minuteOfTs a) ++ "–" ++
    pad2 (hourOfTs b) ++ "h" ++ pad2 (minuteOfTs b)

/-- The rendered range list of one load (`ranges` in `fmt_windows`). -/
def rangesOf (win : List (String × List (ℚ × ℚ))) (name : String) : List String :=
  (dictGetD win name []).map fun w => fmt_range_pt w.1 w.2

/-- `fmt_windows`: join one load's rendered windows (Portuguese "e" = "and"). -/
def fmt_windows (win : List (String × List (ℚ × ℚ))) (name : String) : String :=
  match rangesOf win name with
  | [] => ""
  | [r] => r
  | [r1, r2] => r1 ++ " e " ++ r2
  | r1 :: r2 :: r3 :: rs =>
    String.intercalate ", " ((r1 :: r2 :: r3 :: rs).dropLast) ++ " e " ++
      (r1 :: r2 :: r3 :: rs).getLast (by simp)

/-- Zero left-padding to width two, written the way the spec describes the
rendering ("24-hour, zero-padded hour and minute"); compared against the
source-side `pad2` in the C8 theorem. -/
def specPad2 (n : ℕ) : String :=
  String.mk (List.replicate (2 - (toString n).length) '0') ++ toString n

/-! ### Concrete example inputs -/

/-- First slot of the two-slot oven example (spec scenario A). -/
def exAs0 : ScheduleSlot := ⟨0, [⟨"oven", 2⟩]⟩

/-- Second slot of the two-slot oven example. -/
def exAs1 : ScheduleSlot := ⟨900, [⟨"oven", 2⟩]⟩

/-- Two 15-minute slots with one load at 2 kW. -/
def exA : List ScheduleSlot := [exAs0, exAs1]

/-- A slot holding two entries for the same load name. -/
def exDupS0 : ScheduleSlot := ⟨0, [⟨"x", 1⟩, ⟨"x", 2⟩]⟩

/-- A one-slot schedule whose slot holds duplicate load names. -/
def exDup : List ScheduleSlot := [exDupS0]

/-- A slot at instant 0 where load `a` is present. -/
def exDupTsS0 : ScheduleSlot := ⟨0, [⟨"a", 1⟩]⟩

/-- A second slot at the same instant 0, with no loads. -/
def exDupTsS1 : ScheduleSlot := ⟨0, []⟩

/-- A sorted (non-decreasing) schedule with a duplicated timestamp. -/
def exDupTs : List ScheduleSlot := [exDupTsS0, exDupTsS1]

/-- A single slot whose energy does not survive 3-decimal rounding. -/
def exC5 : List ScheduleSlot := [⟨0, [⟨"x", 1 / 2500⟩]⟩]

/-- Final slot of the only-last-slot example. -/
def exC4last : ScheduleSlot := ⟨900, [⟨"a", 1⟩]⟩

/-- A schedule where load `a` appears only in the final slot. -/
def exC4 : List ScheduleSlot := [⟨0, []⟩, exC4last]

/-- A schedule with a presence gap: load `a` at slots 0 and 2 only. -/
def exGap : List ScheduleSlot := [⟨0, [⟨"a", 1⟩]⟩, ⟨900, []⟩, ⟨1800, [⟨"a", 1⟩]⟩]

/-! ### Basic facts about slot-interval inference -/

/-- The inferred slot duration is always positive. -/
lemma guess_slot_hours_pos (payload : List ScheduleSlot) :
    0 < _guess_slot_hours payload := by
  match payload with
  | [] => norm_num [_guess_slot_hours]
  | [s0] => norm_num [_guess_slot_hours]
  | s0 :: s1 :: rest =>
    rw [_guess_slot_hours]
    split
    · exact lt_of_lt_of_le (by norm_num) (le_max_right _ _)
    · norm_num

/-- C3: slot-interval inference returns `gap / 3600` clamped below by `1e-9`
when at least two slots exist and the gap between the first two timestamps is
positive, returns exactly `0.25` h otherwise (fewer than two slots or a
non-positive gap), and its result is always positive (it is total, so it
never raises). -/
theorem guess_slot_hours_spec (payload : List ScheduleSlot) :
    0 < _guess_slot_hours payload ∧
    (∀ s0 s1 rest, payload = s0 :: s1 :: rest →
      (0 < s1.timestamp - s0.timestamp →
        _guess_slot_hours payload
          = max ((s1.timestamp - s0.timestamp) / 3600) (1 / 1000000000)) ∧
      (s1.timestamp - s0.timestamp ≤ 0 → _guess_slot_hours payload = 1 / 4)) ∧
    (payload.length < 2 → _guess_slot_hours payload = 1 / 4) := by
  refine ⟨guess_slot_hours_pos payload, ?_, ?_⟩
  · intro s0 s1 rest h
    subst h
    constructor
    · intro hpos
      rw [_guess_slot_hours, if_pos hpos]
    · intro hle
      rw [_guess_slot_hours, if_neg (not_lt.mpr hle)]
  · intro h
    match payload, h with
    | [], _ => rfl
    | [s0], _ => rfl
    | s0 :: s1 :: rest, h => simp at h; omega

/-- Witness for C3 at the concrete two-slot schedule `exA` (gap 900 s). -/
theorem guess_slot_hours_spec_witness :
    0 < _guess_slot_hours exA ∧
    _guess_slot_hours exA
      = max ((exAs1.timestamp - exAs0.timestamp) / 3600) (1 / 1000000000) :=
  ⟨(guess_slot_hours_spec exA).1,
   ((guess_slot_hours_spec exA).2.1 exAs0 exAs1 [] rfl).1 (by norm_num [exAs1, exAs0])⟩

/-- C7: the empty schedule degrades to empty maps and zero scalars in the
aggregator, and to an empty mapping in the window builder; both functions
are total, so nothing is raised. -/
theorem empty_schedule_degrades :
    compute_from_schedule []
      = { power_by_ts := [], energy_by_load := [], total_kwh := 0,
          peak_kw := 0, peak_ts := [] } ∧
    load_windows_15m [] = [] := by
  constructor
  · norm_num [compute_from_schedule, listMax0, round3, round_eq]
  · rfl

/-- C6 counterexample: in the slot `[("x", 1), ("x", 2)]` the aggregator
accumulates both duplicate entries (energy `3/4` kWh at the default `0.25` h
slot, per-timestamp power `3` kW), not just the last entry (which would give
`2 * (1/4)` kWh and `2` kW). -/
theorem dup_entries_cex :
    dictGetD (compute_from_schedule exDup).energy_by_load "x" 0 = 3 / 4 ∧
    dictFind (compute_from_schedule exDup).power_by_ts 0 = some 3 ∧
    ¬(dictGetD (compute_from_schedule exDup).energy_by_load "x" 0 = 2 * (1 / 4) ∧
      dictFind (compute_from_schedule exDup).power_by_ts 0 = some 2) := by
  norm_num [compute_from_schedule, aggStep, slotStep, dictInsert, dictGetD, dictFind,
    _guess_slot_hours, exDup, exDupS0, fmtKey]

/-- C2 counterexample: `exDupTs` is sorted in the model's sense (timestamps
non-decreasing), load `a` is present at slot instant `0`, yet its only window
is the empty interval `(0, 0)`, so no window covers that slot. -/
theorem window_coverage_cex :
    List.Pairwise (fun a b : ScheduleSlot => a.timestamp ≤ b.timestamp) exDupTs ∧
    exDupTsS0 ∈ exDupTs ∧
    presentB exDupTsS0 "a" = true ∧
    winsOf exDupTs "a" = [(0, 0)] ∧
    ∀ w ∈ winsOf exDupTs "a",
      ¬(w.1 ≤ exDupTsS0.timestamp ∧ exDupTsS0.timestamp < w.2) := by
  have hw : winsOf exDupTs "a" = [(0, 0)] := by
    norm_num [winsOf, load_windows_15m, lw_aux, _guess_slot_hours, exDupTs,
      exDupTsS0, exDupTsS1, names, stillOpen, toClose, openPhase, closeAll,
      wAppend, dictMem, dictGetD, dictFind, memStr]
  refine ⟨?_, ?_, ?_, hw, ?_⟩
  · norm_num [exDupTs, exDupTsS0, exDupTsS1, List.pairwise_cons]
  · norm_num [exDupTs]
  · norm_num [presentB, exDupTsS0, names, memStr]
  · rw [hw]
    norm_num [exDupTsS0]

/-- C5 counterexample: for the single-slot schedule `exC5` (inferred slot
duration `0.25` h, distinct keys), the histogram carries `0.1` Wh, i.e.
`1/10000` kWh, while `total_energy_kwh` is rounded to `0`. -/
theorem histogram_conservation_cex :
    _guess_slot_hours exC5 = 1 / 4 ∧
    sumHourly (per_hour_Wh (compute_from_schedule exC5).power_by_ts) / 1000
      = 1 / 10000 ∧
    (compute_from_schedule exC5).total_kwh = 0 ∧
    sumHourly (per_hour_Wh (compute_from_schedule exC5).power_by_ts) / 1000
      ≠ (compute_from_schedule exC5).total_kwh := by
  have h1 : sumHourly (per_hour_Wh (compute_from_schedule exC5).power_by_ts) / 1000
      = 1 / 10000 := by
    norm_num [compute_from_schedule, aggStep, slotStep, dictInsert, dictGetD, dictFind,
      _guess_slot_hours, exC5, fmtKey, sumHourly, per_hour_Wh, hourOfKey,
      Finset.sum_range_succ, Function.update_apply]
  have h2 : (compute_from_schedule exC5).total_kwh = 0 := by
    norm_num [compute_from_schedule, aggStep, slotStep, dictInsert, dictGetD, dictFind,
      _guess_slot_hours, exC5, fmtKey, round3, round_eq]
  refine ⟨by norm_num [_guess_slot_hours, exC5], h1, h2, ?_⟩
  rw [h1, h2]
  norm_num

/-! ### Association-list dict lemmas -/

lemma dictFind_eq_none_of_not_mem {α β : Type} [DecidableEq α]
    (m : List (α × β)) (k : α) (h : k ∉ dictKeys m) : dictFind m k = none := by
  induction m with
  | nil => rfl
  | cons p m ih =>
    simp only [dictKeys, List.map_cons, List.mem_cons, not_or] at h
    rw [dictFind, if_neg (fun hk => h.1 hk.symm)]
    exact ih (by simpa [dictKeys] using h.2)

lemma mem_dictKeys_of_mem {α β : Type} (m : List (α × β)) (k : α) (v : β)
    (h : (k, v) ∈ m) : k ∈ dictKeys m :=
  List.mem_map.mpr ⟨(k, v), h, rfl⟩

lemma dictFind_insert {α β : Type} [DecidableEq α] (m : List (α × β)) (k n : α) (v : β) :
    dictFind (dictInsert m k v) n = if k = n then some v else dictFind m n := by
  induction m with
  | nil => simp [dictInsert, dictFind]
  | cons p m ih =>
    rw [dictInsert]
    by_cases hpk : p.1 = k
    · rw [if_pos hpk, dictFind]
      by_cases hkn : k = n
      · rw [if_pos hkn, if_pos hkn]
      · rw [if_neg hkn, if_neg hkn, dictFind,
          if_neg (show ¬p.1 = n from fun hh => hkn (hpk.symm.trans hh))]
    · rw [if_neg hpk]
      by_cases hpn : p.1 = n
      · have hkn : ¬k = n := fun hh => hpk (by rw [hpn, hh])
        rw [dictFind, if_pos hpn, if_neg hkn, dictFind, if_pos hpn]
      · rw [dictFind, if_neg hpn, ih]
        by_cases hkn : k = n
        · rw [if_pos hkn, if_pos hkn]
        · rw [if_neg hkn, if_neg hkn, dictFind, if_neg hpn]

lemma dictGetD_insert {α β : Type} [DecidableEq α] (m : List (α × β)) (k n : α) (v d : β) :
    dictGetD (dictInsert m k v) n d = if k = n then v else dictGetD m n d := by
  rw [dictGetD, dictFind_insert]
  by_cases h : k = n <;> simp [h, dictGetD]

lemma dictInsert_of_not_mem {α β : Type} [DecidableEq α] (m : List (α × β)) (k : α) (v : β)
    (h : k ∉ dictKeys m) : dictInsert m k v = m ++ [(k, v)] := by
  induction m with
  | nil => rfl
  | cons p m ih =>
    simp only [dictKeys, List.map_cons, List.mem_cons, not_or] at h
    rw [dictInsert, if_neg (fun hk => h.1 hk.symm), ih (by simpa [dictKeys] using h.2)]
    rfl

lemma dictKeys_insert_of_mem {α β : Type} [DecidableEq α] (m : List (α × β)) (k : α) (v : β)
    (h : k ∈ dictKeys m) : dictKeys (dictInsert m k v) = dictKeys m := by
  induction m with
  | nil => simp [dictKeys] at h
  | cons p m ih =>
    rw [dictInsert]
    by_cases hpk : p.1 = k
    · rw [if_pos hpk]
      simp [dictKeys, hpk]
    · rw [if_neg hpk]
      have hk : k ∈ dictKeys m := by
        simp only [dictKeys, List.map_cons, List.mem_cons] at h
        rcases h with h1 | h1
        · exact absurd h1.symm hpk
        · simpa [dictKeys] using h1
      simp only [dictKeys, List.map_cons]
      have := ih hk
      simp only [dictKeys] at this
      rw [this]

lemma dictKeys_nodup_insert {α β : Type} [DecidableEq α] (m : List (α × β)) (k : α) (v : β)
    (h : (dictKeys m).Nodup) : (dictKeys (dictInsert m k v)).Nodup := by
  by_cases hk : k ∈ dictKeys m
  · rwa [dictKeys_insert_of_mem m k v hk]
  · rw [dictInsert_of_not_mem m k v hk]
    have hkeys : dictKeys (m ++ [(k, v)]) = dictKeys m ++ [k] := by
      simp [dictKeys]
    rw [hkeys, List.nodup_append]
    refine ⟨h, List.nodup_singleton k, ?_⟩
    intro a ha hb
    rw [List.mem_singleton] at hb
    exact hk (hb ▸ ha)

lemma mem_iff_dictFind {α β : Type} [DecidableEq α] (m : List (α × β)) (k : α) (v : β)
    (h : (dictKeys m).Nodup) : (k, v) ∈ m ↔ dictFind m k = some v := by
  induction m with
  | nil => simp [dictFind]
  | cons p m ih =>
    have h1 : p.1 ∉ dictKeys m := by
      simp only [dictKeys, List.map_cons, List.nodup_cons] at h
      simpa [dictKeys] using h.1
    have h2 : (dictKeys m).Nodup := by
      simp only [dictKeys, List.map_cons, List.nodup_cons] at h
      simpa [dictKeys] using h.2
    rw [dictFind]
    constructor
    · intro hmem
      rcases List.mem_cons.mp hmem with heq | hmem2
      · rw [if_pos (by rw [← heq]), ← heq]
      · have hk : k ∈ dictKeys m := mem_dictKeys_of_mem m k v hmem2
        have hpk : ¬p.1 = k := fun he => h1 (he ▸ hk)
        rw [if_neg hpk]
        exact (ih h2).mp hmem2
    · intro hfind
      by_cases hpk : p.1 = k
      · rw [if_pos hpk] at hfind
        have hv : p.2 = v := by injection hfind
        have hp : p = (k, v) := by
          obtain ⟨pa, pb⟩ := p
          simp only at hpk hv
          rw [hpk, hv]
        rw [hp]
        exact List.mem_cons_self _ _
      · rw [if_neg hpk] at hfind
        exact List.mem_cons_of_mem _ ((ih h2).mpr hfind)

/-! ### Aggregator fold lemmas -/

lemma foldl_slotStep (sH : ℚ) (ds : List DataItem) :
    ∀ (p : ℚ) (e : List (String × ℚ)),
      ds.foldl (slotStep sH) (p, e)
        = (p + (ds.map DataItem.value).sum, energyFold sH ds e) := by
  induction ds with
  | nil => intro p e; simp [energyFold]
  | cons it ds ih =>
    intro p e
    rw [List.foldl_cons, show slotStep sH (p, e) it
        = (p + it.value,
           dictInsert e it.name (dictGetD e it.name 0 + it.value * sH)) from rfl, ih]
    rw [energyFold]
    simp [add_assoc]

lemma energyFold_getD (sH : ℚ) (n : String) (ds : List DataItem) :
    ∀ e, dictGetD (energyFold sH ds e) n 0
      = dictGetD e n 0
        + ((ds.filter fun it => decide (it.name = n)).map
            fun it => it.value * sH).sum := by
  induction ds with
  | nil => intro e; simp [energyFold]
  | cons it ds ih =>
    intro e
    rw [energyFold, ih, dictGetD_insert]
    by_cases h : it.name = n
    · rw [if_pos h, List.filter_cons_of_pos (by simp [h]), List.map_cons,
        List.sum_cons, add_assoc, h]
    · rw [if_neg h, List.filter_cons_of_neg (by simp [h])]

lemma dictInsert_snd_sum (m : List (String × ℚ)) (k : String) (x : ℚ) :
    ((dictInsert m k (dictGetD m k 0 + x)).map Prod.snd).sum
      = (m.map Prod.snd).sum + x := by
  induction m with
  | nil => simp [dictInsert, dictGetD, dictFind]
  | cons p m ih =>
    rw [dictInsert]
    by_cases hpk : p.1 = k
    · rw [if_pos hpk, dictGetD, dictFind, if_pos hpk]
      simp only [List.map_cons, List.sum_cons, Option.getD_some]
      ring
    · rw [if_neg hpk, dictGetD, dictFind, if_neg hpk]
      simp only [List.map_cons, List.sum_cons]
      rw [show (dictFind m k).getD 0 = dictGetD m k 0 from rfl, ih]
      ring

lemma energyFold_sum (sH : ℚ) (ds : List DataItem) :
    ∀ e, ((energyFold sH ds e).map Prod.snd).sum
      = (e.map Prod.snd).sum + (ds.map fun it => it.value * sH).sum := by
  induction ds with
  | nil => intro e; simp [energyFold]
  | cons it ds ih =>
    intro e
    rw [energyFold, ih, dictInsert_snd_sum]
    simp [add_assoc]

lemma agg_fold_snd (sH : ℚ) (slots : List ScheduleSlot) :
    ∀ (m : List (ℤ × ℚ)) (e : List (String × ℚ)),
      (slots.foldl (aggStep sH) (m, e)).2 = energyAll sH slots e := by
  induction slots with
  | nil => intro m e; simp [energyAll]
  | cons sl slots ih =>
    intro m e
    rw [List.foldl_cons, show aggStep sH (m, e) sl
        = (dictInsert m (fmtKey sl.timestamp) (sl.data.foldl (slotStep sH) (0, e)).1,
           (sl.data.foldl (slotStep sH) (0, e)).2) from rfl]
    rw [foldl_slotStep]
    rw [ih, energyAll]

lemma energyAll_getD (sH : ℚ) (n : String) (slots : List ScheduleSlot) :
    ∀ e, dictGetD (energyAll sH slots e) n 0
      = dictGetD e n 0
        + (slots.map fun sl =>
            ((sl.data.filter fun it => decide (it.name = n)).map
              fun it => it.value * sH).sum).sum := by
  induction slots with
  | nil => intro e; simp [energyAll]
  | cons sl slots ih =>
    intro e
    rw [energyAll, ih, energyFold_getD]
    simp [add_assoc]

lemma energyAll_sum (sH : ℚ) (slots : List ScheduleSlot) :
    ∀ e, ((energyAll sH slots e).map Prod.snd).sum
      = (e.map Prod.snd).sum
        + (slots.map fun sl => (sl.data.map fun it => it.value * sH).sum).sum := by
  induction slots with
  | nil => intro e; simp [energyAll]
  | cons sl slots ih =>
    intro e
    rw [energyAll, ih, energyFold_sum]
    simp [add_assoc]

lemma agg_fold_fst_keys_nodup (sH : ℚ) (slots : List ScheduleSlot) :
    ∀ (m : List (ℤ × ℚ)) (e : List (String × ℚ)), (dictKeys m).Nodup →
      (dictKeys (slots.foldl (aggStep sH) (m, e)).1).Nodup := by
  induction slots with
  | nil => intro m e h; exact h
  | cons sl slots ih =>
    intro m e h
    rw [List.foldl_cons]
    exact ih _ _ (dictKeys_nodup_insert _ _ _ h)

lemma agg_fold_fst_of_nodup (sH : ℚ) (slots : List ScheduleSlot) :
    ∀ (m : List (ℤ × ℚ)) (e : List (String × ℚ)),
      (dictKeys m ++ slots.map fun sl => fmtKey sl.timestamp).Nodup →
      (slots.foldl (aggStep sH) (m, e)).1
        = m ++ slots.map fun sl =>
            (fmtKey sl.timestamp, (sl.data.map DataItem.value).sum) := by
  induction slots with
  | nil => intro m e _; simp
  | cons sl slots ih =>
    intro m e h
    have hnotin : fmtKey sl.timestamp ∉ dictKeys m := by
      rw [List.map_cons, List.nodup_append] at h
      exact fun hmem => h.2.2 hmem (List.mem_cons_self _ _)
    rw [List.foldl_cons, show aggStep sH (m, e) sl
        = (dictInsert m (fmtKey sl.timestamp) (sl.data.foldl (slotStep sH) (0, e)).1,
           (sl.data.foldl (slotStep sH) (0, e)).2) from rfl]
    rw [foldl_slotStep, dictInsert_of_not_mem _ _ _ hnotin]
    have hkeys : dictKeys (m ++ [(fmtKey sl.timestamp, 0 + (sl.data.map DataItem.value).sum)])
        = dictKeys m ++ [fmtKey sl.timestamp] := by simp [dictKeys]
    have h2 : (dictKeys (m ++ [(fmtKey sl.timestamp, 0 + (sl.data.map DataItem.value).sum)])
        ++ slots.map fun sl => fmtKey sl.timestamp).Nodup := by
      rw [hkeys, List.append_assoc, List.singleton_append]
      rw [List.map_cons] at h
      exact h
    rw [ih _ _ h2, List.append_assoc, List.singleton_append]
    simp [zero_add]

/-! ### Maximum lemmas -/

lemma foldl_max_init_le (l : List ℚ) : ∀ a : ℚ, a ≤ l.foldl max a := by
  induction l with
  | nil => intro a; simp
  | cons v l ih =>
    intro a
    rw [List.foldl_cons]
    exact le_trans (le_max_left a v) (ih (max a v))

lemma foldl_max_le_of_mem (l : List ℚ) : ∀ (a v : ℚ), v ∈ l → v ≤ l.foldl max a := by
  induction l with
  | nil => intro a v h; simp at h
  | cons w l ih =>
    intro a v h
    rw [List.foldl_cons]
    rcases List.mem_cons.mp h with rfl | h
    · exact le_trans (le_max_right a v) (foldl_max_init_le l (max a v))
    · exact ih (max a w) v h

lemma le_listMax0 (l : List ℚ) (v : ℚ) (h : v ∈ l) : v ≤ listMax0 l := by
  match l with
  | [] => simp at h
  | w :: ws =>
    rw [listMax0]
    rcases List.mem_cons.mp h with rfl | h
    · exact foldl_max_init_le ws v
    · exact foldl_max_le_of_mem ws w v h

lemma foldl_max_mem (l : List ℚ) : ∀ a : ℚ, l.foldl max a = a ∨ l.foldl max a ∈ l := by
  induction l with
  | nil => intro a; left; rfl
  | cons v l ih =>
    intro a
    rw [List.foldl_cons]
    rcases ih (max a v) with h | h
    · rcases max_choice a v with hm | hm
      · left; rw [h, hm]
      · right; rw [h, hm]; exact List.mem_cons_self _ _
    · right; exact List.mem_cons_of_mem _ h

lemma listMax0_mem (l : List ℚ) (h : l ≠ []) : listMax0 l ∈ l := by
  match l with
  | [] => exact absurd rfl h
  | w :: ws =>
    rw [listMax0]
    rcases foldl_max_mem ws w with h1 | h1
    · rw [h1]; exact List.mem_cons_self _ _
    · exact List.mem_cons_of_mem _ h1

/-! ### Peak correctness (C1) -/

/-- C1: `peak_power_kw` is the 3-decimal rounding of the true maximum of the
per-timestamp totals (`0` for an empty schedule, since the maximum then
defaults to `0`), and `peak_timestamps` contains exactly those timestamp keys
whose unrounded per-slot total differs from the unrounded maximum by less
than `1e-9`: every such key is a member and no other key is. -/
theorem peak_correct (payload : List ScheduleSlot) :
    (∀ kv ∈ (compute_from_schedule payload).power_by_ts, kv.2 ≤ peak_kw_val payload) ∧
    ((compute_from_schedule payload).power_by_ts ≠ [] →
      ∃ kv ∈ (compute_from_schedule payload).power_by_ts, kv.2 = peak_kw_val payload) ∧
    ((compute_from_schedule payload).power_by_ts = [] →
      (compute_from_schedule payload).peak_kw = 0) ∧
    (compute_from_schedule payload).peak_kw = round3 (peak_kw_val payload) ∧
    (∀ k : ℤ, k ∈ (compute_from_schedule payload).peak_ts ↔
      ∃ p, dictFind (compute_from_schedule payload).power_by_ts k = some p ∧
        |p - peak_kw_val payload| < epsQ) := by
  have hnodup : (dictKeys (compute_from_schedule payload).power_by_ts).Nodup :=
    agg_fold_fst_keys_nodup _ payload [] [] (by simp [dictKeys])
  have hpts : (compute_from_schedule payload).peak_ts
      = ((compute_from_schedule payload).power_by_ts.filter
          fun kv => decide (|kv.2 - peak_kw_val payload| < epsQ)).map Prod.fst := rfl
  refine ⟨?_, ?_, ?_, rfl, ?_⟩
  · intro kv hkv
    simp only [peak_kw_val]
    exact le_listMax0 _ _ (List.mem_map_of_mem _ hkv)
  · intro hne
    have hmem : listMax0 ((compute_from_schedule payload).power_by_ts.map Prod.snd)
        ∈ (compute_from_schedule payload).power_by_ts.map Prod.snd :=
      listMax0_mem _ (by simpa using hne)
    obtain ⟨kv, hkv, heq⟩ := List.mem_map.mp hmem
    exact ⟨kv, hkv, by simp only [peak_kw_val]; exact heq⟩
  · intro hemp
    have hz : peak_kw_val payload = 0 := by
      simp only [peak_kw_val, hemp]
      rfl
    have hpk : (compute_from_schedule payload).peak_kw = round3 (peak_kw_val payload) := rfl
    rw [hpk, hz]
    norm_num [round3, round_eq]
  · intro k
    rw [hpts]
    constructor
    · intro hk
      obtain ⟨kv, hkv, hfst⟩ := List.mem_map.mp hk
      obtain ⟨k', p⟩ := kv
      obtain rfl : k' = k := hfst
      have hmem := (List.mem_filter.mp hkv).1
      have hpred := (List.mem_filter.mp hkv).2
      exact ⟨p, (mem_iff_dictFind _ _ _ hnodup).mp hmem, of_decide_eq_true hpred⟩
    · rintro ⟨p, hfind, hlt⟩
      have hmem : (k, p) ∈ (compute_from_schedule payload).power_by_ts :=
        (mem_iff_dictFind _ _ _ hnodup).mpr hfind
      exact List.mem_map.mpr
        ⟨(k, p), List.mem_filter.mpr ⟨hmem, decide_eq_true hlt⟩, rfl⟩

/-- Witness for C1: at the two-slot oven schedule, key `0` is a tied peak
member, obtained from the membership characterization. -/
theorem peak_correct_witness : (0 : ℤ) ∈ (compute_from_schedule exA).peak_ts := by
  refine ((peak_correct exA).2.2.2.2 0).mpr ⟨2, ?_, ?_⟩
  · norm_num [compute_from_schedule, aggStep, slotStep, dictInsert, dictFind, dictGetD,
      _guess_slot_hours, exA, exAs0, exAs1, fmtKey]
  · have hpk : peak_kw_val exA = 2 := by
      norm_num [peak_kw_val, compute_from_schedule, aggStep, slotStep, dictInsert,
        dictFind, dictGetD, _guess_slot_hours, exA, exAs0, exAs1, fmtKey, listMax0]
    rw [hpk]
    norm_num [epsQ]

/-! ### Duplicate-entry semantics (C6 amended) -/

/-- C6 amended: duplicate `(load, power)` entries inside one slot all
contribute (accumulation semantics), with no detection or rejection: a
load's energy is the sum of `value * slot_h` over every entry bearing its
name, and — when the formatted timestamp keys are distinct — the
per-timestamp total is the sum of every entry's value in the slot. -/
theorem dup_entries_accumulate (payload : List ScheduleSlot) (n : String) :
    dictGetD (compute_from_schedule payload).energy_by_load n 0
      = (payload.map fun sl =>
          ((sl.data.filter fun it => decide (it.name = n)).map
            fun it => it.value * _guess_slot_hours payload).sum).sum ∧
    ((payload.map fun sl => fmtKey sl.timestamp).Nodup →
      ∀ slot ∈ payload,
        dictFind (compute_from_schedule payload).power_by_ts (fmtKey slot.timestamp)
          = some (slot.data.map DataItem.value).sum) := by
  constructor
  · have he : (compute_from_schedule payload).energy_by_load
        = energyAll (_guess_slot_hours payload) payload [] := agg_fold_snd _ payload [] []
    rw [he, energyAll_getD]
    simp [dictGetD, dictFind]
  · intro hnd slot hmem
    have hpb : (compute_from_schedule payload).power_by_ts
        = payload.map fun sl =>
            (fmtKey sl.timestamp, (sl.data.map DataItem.value).sum) :=
      agg_fold_fst_of_nodup _ payload [] [] (by simpa [dictKeys] using hnd)
    rw [hpb]
    have hkeys : dictKeys (payload.map fun sl =>
        (fmtKey sl.timestamp, (sl.data.map DataItem.value).sum))
        = payload.map fun sl => fmtKey sl.timestamp := by
      simp [dictKeys, List.map_map]
    refine (mem_iff_dictFind _ _ _ ?_).mp ?_
    · rw [hkeys]; exact hnd
    · exact List.mem_map.mpr ⟨slot, hmem, rfl⟩

/-- Witness for C6's amended accumulation semantics at the duplicate-entry
slot: both conjuncts instantiated, hypotheses discharged concretely. -/
theorem dup_entries_accumulate_witness :
    dictGetD (compute_from_schedule exDup).energy_by_load "x" 0
      = (exDup.map fun sl =>
          ((sl.data.filter fun it => decide (it.name = "x")).map
            fun it => it.value * _guess_slot_hours exDup).sum).sum ∧
    dictFind (compute_from_schedule exDup).power_by_ts (fmtKey exDupS0.timestamp)
      = some ((exDupS0.data.map DataItem.value).sum) :=
  ⟨(dup_entries_accumulate exDup "x").1,
   (dup_entries_accumulate exDup "x").2
     (by norm_num [exDup, exDupS0, fmtKey])
     exDupS0 (by norm_num [exDup])⟩

/-! ### Peak timestamp ordering (C9) -/

/-- C9: for a sorted schedule whose formatted timestamp keys are pairwise
distinct, `peak_timestamps` is in strictly ascending chronological order
(it enumerates the per-timestamp totals in schedule order). -/
theorem peak_ts_sorted (payload : List ScheduleSlot)
    (hsort : List.Pairwise (fun a b : ScheduleSlot => a.timestamp ≤ b.timestamp) payload)
    (hnd : (payload.map fun sl => fmtKey sl.timestamp).Nodup) :
    List.Pairwise (fun a b : ℤ => a < b) (compute_from_schedule payload).peak_ts := by
  have hpb : (compute_from_schedule payload).power_by_ts
      = payload.map fun sl =>
          (fmtKey sl.timestamp, (sl.data.map DataItem.value).sum) :=
    agg_fold_fst_of_nodup _ payload [] [] (by simpa [dictKeys] using hnd)
  have hpts : (compute_from_schedule payload).peak_ts
      = ((compute_from_schedule payload).power_by_ts.filter
          fun kv => decide (|kv.2 - peak_kw_val payload| < epsQ)).map Prod.fst := rfl
  rw [hpts, hpb]
  have h1 : List.Pairwise
      (fun a b : ScheduleSlot => fmtKey a.timestamp ≤ fmtKey b.timestamp) payload :=
    hsort.imp fun h => Int.floor_le_floor h
  have h2 : List.Pairwise
      (fun a b : ScheduleSlot => fmtKey a.timestamp ≠ fmtKey b.timestamp) payload :=
    List.pairwise_map.mp hnd
  have hlt : List.Pairwise
      (fun a b : ScheduleSlot => fmtKey a.timestamp < fmtKey b.timestamp) payload :=
    (h1.and h2).imp fun h => lt_of_le_of_ne h.1 h.2
  have hpair : List.Pairwise (fun u v : ℤ × ℚ => u.1 < v.1)
      (payload.map fun sl => (fmtKey sl.timestamp, (sl.data.map DataItem.value).sum)) :=
    List.pairwise_map.mpr (hlt.imp fun h => h)
  have hfil := List.Pairwise.filter
    (fun kv : ℤ × ℚ => decide (|kv.2 - peak_kw_val payload| < epsQ)) hpair
  exact List.pairwise_map.mpr (hfil.imp fun h => h)

/-- Witness for C9 at the two-slot oven schedule: its tied peak keys come
out strictly ascending. -/
theorem peak_ts_sorted_witness :
    List.Pairwise (fun a b : ℤ => a < b) (compute_from_schedule exA).peak_ts :=
  peak_ts_sorted exA
    (by norm_num [exA, exAs0, exAs1, List.pairwise_cons])
    (by norm_num [exA, exAs0, exAs1, fmtKey, List.nodup_cons])

/-! ### Histogram lemmas and C5 (amended) -/

lemma hourOfKey_nonneg (k : ℤ) : 0 ≤ hourOfKey k := by
  unfold hourOfKey
  omega

lemma hourOfKey_lt (k : ℤ) : hourOfKey k < 24 := by
  unfold hourOfKey
  omega

lemma sumHourly_update (f : ℤ → ℚ) (i : ℤ) (v : ℚ) (h0 : 0 ≤ i) (h24 : i < 24) :
    sumHourly (Function.update f i v) = sumHourly f + (v - f i) := by
  have hmem : i.toNat ∈ Finset.range 24 := Finset.mem_range.mpr (by omega)
  have hfun : ∀ h : ℕ, Function.update f i v (h : ℤ)
      = Function.update (fun hh : ℕ => f (hh : ℤ)) i.toNat v h := by
    intro h
    by_cases hh : (h : ℤ) = i
    · have hh2 : h = i.toNat := by omega
      rw [hh, Function.update_same, hh2, Function.update_same]
    · have hh2 : h ≠ i.toNat := by omega
      rw [Function.update_noteq hh, Function.update_noteq hh2]
  rw [sumHourly, sumHourly, Finset.sum_congr rfl fun x _ => hfun x,
    Finset.sum_update_of_mem hmem, Finset.sdiff_singleton_eq_erase]
  have herase : ∑ x in (Finset.range 24).erase i.toNat, f (x : ℤ)
      = (∑ x in Finset.range 24, f (x : ℤ)) - f ((i.toNat : ℕ) : ℤ) := by
    have hadd := Finset.add_sum_erase (Finset.range 24) (fun x : ℕ => f (x : ℤ)) hmem
    linarith
  rw [herase]
  have hcast : ((i.toNat : ℕ) : ℤ) = i := by omega
  rw [hcast]
  ring

lemma sumHourly_per_hour (pbt : List (ℤ × ℚ)) :
    sumHourly (per_hour_Wh pbt) = (pbt.map fun kv => kv.2 * 250).sum := by
  suffices h : ∀ f : ℤ → ℚ,
      sumHourly (pbt.foldl (fun f kv =>
        Function.update f (hourOfKey kv.1) (f (hourOfKey kv.1) + kv.2 * 250)) f)
        = sumHourly f + (pbt.map fun kv => kv.2 * 250).sum by
    have h0 : sumHourly (fun _ => 0) = 0 := by simp [sumHourly]
    rw [per_hour_Wh, h (fun _ => 0), h0, zero_add]
  induction pbt with
  | nil => intro f; simp
  | cons kv pbt ih =>
    intro f
    rw [List.foldl_cons, ih, sumHourly_update _ _ _ (hourOfKey_nonneg _) (hourOfKey_lt _),
      List.map_cons, List.sum_cons]
    ring

/-- C5 amended: when the inferred slot duration is exactly `0.25` h and the
formatted timestamp keys are pairwise distinct, the sum of the 24 hourly
histogram buckets (Wh) divided by 1000 equals `total_energy_kwh` after the
same 3-decimal rounding that `total_energy_kwh` itself carries. -/
theorem histogram_conservation_amended (payload : List ScheduleSlot)
    (h4 : _guess_slot_hours payload = 1 / 4)
    (hnd : (payload.map fun sl => fmtKey sl.timestamp).Nodup) :
    round3 (sumHourly (per_hour_Wh (compute_from_schedule payload).power_by_ts) / 1000)
      = (compute_from_schedule payload).total_kwh := by
  have hpb : (compute_from_schedule payload).power_by_ts
      = payload.map fun sl =>
          (fmtKey sl.timestamp, (sl.data.map DataItem.value).sum) :=
    agg_fold_fst_of_nodup _ payload [] [] (by simpa [dictKeys] using hnd)
  have htot : (compute_from_schedule payload).total_kwh
      = round3 (((compute_from_schedule payload).energy_by_load.map Prod.snd).sum) := rfl
  have he : (compute_from_schedule payload).energy_by_load
      = energyAll (_guess_slot_hours payload) payload [] := agg_fold_snd _ payload [] []
  rw [htot, he, energyAll_sum, hpb, sumHourly_per_hour, List.map_map]
  congr 1
  rw [h4]
  have hL : (payload.map
      ((fun kv : ℤ × ℚ => kv.2 * 250) ∘ fun sl =>
        (fmtKey sl.timestamp, (sl.data.map DataItem.value).sum))).sum
      = (payload.map fun sl => (sl.data.map DataItem.value).sum).sum * 250 := by
    rw [show (fun kv : ℤ × ℚ => kv.2 * 250) ∘ (fun sl : ScheduleSlot =>
        (fmtKey sl.timestamp, (sl.data.map DataItem.value).sum))
        = fun sl : ScheduleSlot => (sl.data.map DataItem.value).sum * 250 from rfl]
    exact List.sum_map_mul_right payload (fun sl => (sl.data.map DataItem.value).sum) 250
  have hR : (payload.map fun sl =>
      (sl.data.map fun it => it.value * (1 / 4 : ℚ)).sum).sum
      = (payload.map fun sl => (sl.data.map DataItem.value).sum).sum * (1 / 4) := by
    have hslot : ∀ sl : ScheduleSlot,
        (sl.data.map fun it => it.value * (1 / 4 : ℚ)).sum
          = (sl.data.map DataItem.value).sum * (1 / 4) := fun sl =>
      List.sum_map_mul_right sl.data DataItem.value (1 / 4)
    rw [List.map_congr_left fun sl _ => hslot sl]
    exact List.sum_map_mul_right payload (fun sl => (sl.data.map DataItem.value).sum) (1 / 4)
  rw [hL, hR]
  simp
  ring

/-- Witness for C5's amended conservation at the two-slot oven schedule
(slot duration `0.25` h, distinct keys): both hypotheses discharged. -/
theorem histogram_conservation_amended_witness :
    round3 (sumHourly (per_hour_Wh (compute_from_schedule exA).power_by_ts) / 1000)
      = (compute_from_schedule exA).total_kwh :=
  histogram_conservation_amended exA
    (by norm_num [_guess_slot_hours, exA, exAs0, exAs1])
    (by norm_num [exA, exAs0, exAs1, fmtKey, List.nodup_cons])

/-! ### Window-builder dict lemmas -/

lemma dictMem_iff_mem_keys {α β : Type} [DecidableEq α] (m : List (α × β)) (k : α) :
    dictMem m k = true ↔ k ∈ dictKeys m := by
  induction m with
  | nil => simp [dictMem, dictKeys]
  | cons p m ih =>
    rw [dictMem]
    by_cases hpk : p.1 = k
    · simp [hpk, dictKeys]
    · simp only [if_neg hpk, dictKeys, List.map_cons, List.mem_cons, ih]
      constructor
      · intro h; right; simpa [dictKeys] using h
      · rintro (h | h)
        · exact absurd h.symm hpk
        · simpa [dictKeys] using h

lemma dictFind_isSome_of_mem_keys {α β : Type} [DecidableEq α] (m : List (α × β)) (k : α)
    (h : k ∈ dictKeys m) : ∃ v, dictFind m k = some v := by
  induction m with
  | nil => simp [dictKeys] at h
  | cons p m ih =>
    rw [dictFind]
    by_cases hpk : p.1 = k
    · exact ⟨p.2, by rw [if_pos hpk]⟩
    · simp only [dictKeys, List.map_cons, List.mem_cons] at h
      rcases h with h | h
      · exact absurd h.symm hpk
      · rw [if_neg hpk]
        exact ih (by simpa [dictKeys] using h)

lemma dictFind_append {α β : Type} [DecidableEq α] (m1 m2 : List (α × β)) (k : α) :
    dictFind (m1 ++ m2) k
      = match dictFind m1 k with
        | some v => some v
        | none => dictFind m2 k := by
  induction m1 with
  | nil => simp [dictFind]
  | cons p m1 ih =>
    rw [List.cons_append, dictFind, dictFind]
    by_cases hpk : p.1 = k
    · rw [if_pos hpk, if_pos hpk]
    · rw [if_neg hpk, if_neg hpk, ih]

lemma wAppend_getD (w : List (String × List (ℚ × ℚ))) (m n : String) (v : ℚ × ℚ) :
    dictGetD (wAppend w m v) n []
      = dictGetD w n [] ++ (if m = n then [v] else []) := by
  induction w with
  | nil =>
    by_cases h : m = n <;> simp [wAppend, dictGetD, dictFind, h]
  | cons p w ih =>
    rw [wAppend]
    by_cases hpm : p.1 = m
    · rw [if_pos hpm]
      by_cases hpn : p.1 = n
      · rw [dictGetD, dictFind, if_pos hpn, dictGetD, dictFind, if_pos hpn,
          if_pos (hpm.symm.trans hpn)]
        simp
      · have hmn : ¬m = n := fun h => hpn (hpm.trans h)
        rw [dictGetD, dictFind, if_neg hpn, dictGetD, dictFind, if_neg hpn, if_neg hmn]
        simp [dictGetD]
    · rw [if_neg hpm]
      by_cases hpn : p.1 = n
      · have hmn : ¬m = n := fun h => hpm (hpn.trans h.symm)
        rw [dictGetD, dictFind, if_pos hpn, dictGetD, dictFind, if_pos hpn, if_neg hmn]
        simp
      · rw [dictGetD, dictFind, if_neg hpn, dictGetD, dictFind, if_neg hpn]
        exact ih

lemma closeAll_getD (ts : ℚ) (cl : List (String × ℚ)) :
    ∀ (w : List (String × List (ℚ × ℚ))) (n : String), (dictKeys cl).Nodup →
      dictGetD (closeAll ts cl w) n []
        = dictGetD w n []
          ++ (match dictFind cl n with
              | some st => [(st, ts)]
              | none => []) := by
  induction cl with
  | nil => intro w n _; simp [closeAll, dictFind]
  | cons p cl ih =>
    intro w n hnd
    have h1 : p.1 ∉ dictKeys cl := by
      simp only [dictKeys, List.map_cons, List.nodup_cons] at hnd
      simpa [dictKeys] using hnd.1
    have h2 : (dictKeys cl).Nodup := by
      simp only [dictKeys, List.map_cons, List.nodup_cons] at hnd
      simpa [dictKeys] using hnd.2
    rw [closeAll, ih _ _ h2, wAppend_getD]
    rw [dictFind]
    by_cases hpn : p.1 = n
    · have hnone : dictFind cl n = none :=
        dictFind_eq_none_of_not_mem _ _ (hpn ▸ h1)
      rw [hnone, if_pos hpn, if_pos hpn]
      simp
    · rw [if_neg hpn, if_neg hpn]
      simp

lemma stillOpen_find (pres : List String) (a : List (String × ℚ)) (n : String) :
    dictFind (stillOpen pres a) n
      = if memStr pres n then dictFind a n else none := by
  induction a with
  | nil =>
    by_cases h : memStr pres n <;> simp [stillOpen, dictFind, h]
  | cons p a ih =>
    rw [stillOpen, List.filter_cons]
    by_cases hp : memStr pres p.1
    · rw [if_pos (by simpa using hp)]
      rw [dictFind]
      by_cases hpn : p.1 = n
      · rw [if_pos hpn, if_pos (hpn ▸ hp), dictFind, if_pos hpn]
      · rw [if_neg hpn, show List.filter (fun p => memStr pres p.1) a = stillOpen pres a
          from rfl, ih, dictFind, if_neg hpn]
    · rw [if_neg (by simpa using hp)]
      rw [show List.filter (fun p => memStr pres p.1) a = stillOpen pres a from rfl, ih]
      by_cases hmn : memStr pres n
      · have hpn : ¬p.1 = n := fun h => hp (h ▸ hmn)
        rw [if_pos hmn, if_pos hmn, dictFind, if_neg hpn]
      · rw [if_neg hmn, if_neg hmn]

lemma toClose_find (pres : List String) (a : List (String × ℚ)) (n : String) :
    dictFind (toClose pres a) n
      = if memStr pres n then none else dictFind a n := by
  induction a with
  | nil =>
    by_cases h : memStr pres n <;> simp [toClose, dictFind, h]
  | cons p a ih =>
    rw [toClose, List.filter_cons]
    by_cases hp : memStr pres p.1
    · rw [if_neg (by simpa using hp)]
      rw [show List.filter (fun p => !memStr pres p.1) a = toClose pres a from rfl, ih]
      by_cases hmn : memStr pres n
      · rw [if_pos hmn, if_pos hmn]
      · have hpn : ¬p.1 = n := fun h => hmn (h ▸ hp)
        rw [if_neg hmn, if_neg hmn, dictFind, if_neg hpn]
    · rw [if_pos (by simpa using hp)]
      rw [dictFind]
      by_cases hpn : p.1 = n
      · have hmn : ¬memStr pres n = true := fun h => hp (hpn ▸ h)
        rw [if_pos hpn, if_neg hmn, dictFind, if_pos hpn]
      · rw [if_neg hpn, show List.filter (fun p => !memStr pres p.1) a = toClose pres a
          from rfl, ih, dictFind, if_neg hpn]

lemma openPhase_find (ts : ℚ) (ds : List DataItem) :
    ∀ (a : List (String × ℚ)) (n : String),
      dictFind (openPhase ts ds a) n
        = match dictFind a n with
          | some v => some v
          | none => if memStr (names ds) n then some ts else none := by
  induction ds with
  | nil =>
    intro a n
    rw [openPhase]
    cases h : dictFind a n <;> simp [names, memStr, h]
  | cons it ds ih =>
    intro a n
    rw [openPhase]
    by_cases hmem : dictMem a it.name
    · rw [if_pos hmem, ih]
      by_cases hin : it.name = n
      · obtain ⟨v, hv⟩ := dictFind_isSome_of_mem_keys a n
          (hin ▸ (dictMem_iff_mem_keys a it.name).mp hmem)
        rw [hv]
      · have hns : memStr (names (it :: ds)) n = memStr (names ds) n := by
          simp [names, memStr, hin]
        rw [hns]
    · rw [if_neg hmem, ih]
      have hfa : it.name ∉ dictKeys a :=
        fun h => hmem ((dictMem_iff_mem_keys a it.name).mpr h)
      by_cases hin : it.name = n
      · have hnone : dictFind a n = none :=
          dictFind_eq_none_of_not_mem _ _ (hin ▸ hfa)
        have happ : dictFind (a ++ [(it.name, ts)]) n = some ts := by
          rw [dictFind_append, hnone]
          simp [dictFind, hin]
        rw [happ, hnone]
        have hns : memStr (names (it :: ds)) n = true := by
          simp [names, memStr, hin]
        rw [hns]
        rfl
      · have happ : dictFind (a ++ [(it.name, ts)]) n = dictFind a n := by
          rw [dictFind_append]
          cases h : dictFind a n <;> simp [dictFind, hin]
        rw [happ]
        have hns : memStr (names (it :: ds)) n = memStr (names ds) n := by
          simp [names, memStr, hin]
        rw [hns]

lemma stillOpen_keys_nodup (pres : List String) (a : List (String × ℚ))
    (h : (dictKeys a).Nodup) : (dictKeys (stillOpen pres a)).Nodup :=
  List.Nodup.sublist (List.Sublist.map Prod.fst (List.filter_sublist a)) h

lemma toClose_keys_nodup (pres : List String) (a : List (String × ℚ))
    (h : (dictKeys a).Nodup) : (dictKeys (toClose pres a)).Nodup :=
  List.Nodup.sublist (List.Sublist.map Prod.fst (List.filter_sublist a)) h

lemma openPhase_keys_nodup (ts : ℚ) (ds : List DataItem) :
    ∀ a : List (String × ℚ), (dictKeys a).Nodup →
      (dictKeys (openPhase ts ds a)).Nodup := by
  induction ds with
  | nil => intro a h; exact h
  | cons it ds ih =>
    intro a h
    rw [openPhase]
    by_cases hmem : dictMem a it.name
    · rw [if_pos hmem]
      exact ih a h
    · rw [if_neg hmem]
      refine ih _ ?_
      have hk : it.name ∉ dictKeys a :=
        fun hh => hmem ((dictMem_iff_mem_keys _ _).mpr hh)
      have hkeys : dictKeys (a ++ [(it.name, ts)]) = dictKeys a ++ [it.name] := by
        simp [dictKeys]
      rw [hkeys, List.nodup_append]
      exact ⟨h, List.nodup_singleton _,
        fun x hx hx2 => hk ((List.mem_singleton.mp hx2) ▸ hx)⟩

/-! ### Per-load projection of the window builder -/

lemma lw_aux_getD (sH : ℚ) (n : String) :
    ∀ (slots : List ScheduleSlot) (w : List (String × List (ℚ × ℚ)))
      (a : List (String × ℚ)), (dictKeys a).Nodup →
      dictGetD (lw_aux sH slots w a) n []
        = dictGetD w n []
          ++ lwLoad (sH * 3600) (slots.map (projL n)) (dictFind a n) := by
  intro slots
  induction slots with
  | nil => intro w a _; simp [lw_aux, lwLoad]
  | cons slot rest ih =>
    intro w a hnd
    have hndc : (dictKeys (toClose (names slot.data) a)).Nodup :=
      toClose_keys_nodup _ _ hnd
    have hnda1 : (dictKeys (openPhase slot.timestamp slot.data
        (stillOpen (names slot.data) a))).Nodup :=
      openPhase_keys_nodup _ _ _ (stillOpen_keys_nodup _ _ hnd)
    have hw1 : dictGetD (closeAll slot.timestamp (toClose (names slot.data) a) w) n []
        = dictGetD w n []
          ++ (if presentB slot n then []
              else (match dictFind a n with
                    | some st => [(st, slot.timestamp)]
                    | none => ([] : List (ℚ × ℚ)))) := by
      rw [closeAll_getD _ _ _ _ hndc, toClose_find]
      by_cases hb : memStr (names slot.data) n
      · rw [if_pos hb, if_pos (show presentB slot n = true from hb)]
      · rw [if_neg hb, if_neg (show ¬presentB slot n = true from hb)]
    have ha1 : dictFind (openPhase slot.timestamp slot.data
        (stillOpen (names slot.data) a)) n
        = if presentB slot n then some ((dictFind a n).getD slot.timestamp)
          else none := by
      rw [openPhase_find, stillOpen_find]
      by_cases hb : memStr (names slot.data) n
      · rw [if_pos hb, if_pos (show presentB slot n = true from hb)]
        cases hfa : dictFind a n <;> simp [hb]
      · rw [if_neg hb, if_neg (show ¬presentB slot n = true from hb)]
        simp [hb]
    cases rest with
    | nil =>
      rw [show lw_aux sH [slot] w a
          = closeAll (slot.timestamp + sH * 3600)
              (openPhase slot.timestamp slot.data (stillOpen (names slot.data) a))
              (closeAll slot.timestamp (toClose (names slot.data) a) w) from rfl]
      rw [closeAll_getD _ _ _ _ hnda1, hw1, ha1]
      rw [show ([slot].map (projL n)) = [(slot.timestamp, presentB slot n)] from rfl]
      cases hb : presentB slot n <;> cases hfa : dictFind a n <;> simp [lwLoad]
    | cons q rest' =>
      rw [show lw_aux sH (slot :: q :: rest') w a
          = lw_aux sH (q :: rest')
              (closeAll slot.timestamp (toClose (names slot.data) a) w)
              (openPhase slot.timestamp slot.data (stillOpen (names slot.data) a))
          from rfl]
      rw [ih _ _ hnda1, hw1, ha1]
      rw [List.map_cons, List.map_cons,
        show projL n slot = (slot.timestamp, presentB slot n) from rfl]
      cases hb : presentB slot n <;> cases hfa : dictFind a n <;> simp [lwLoad]

/-- The windows of load `n` are exactly the per-load trace of its projected
schedule. -/
lemma winsOf_eq_lwLoad (payload : List ScheduleSlot) (n : String) :
    winsOf payload n
      = lwLoad (_guess_slot_hours payload * 3600) (payload.map (projL n)) none := by
  have h := lw_aux_getD (_guess_slot_hours payload) n payload [] [] (by simp [dictKeys])
  simpa [winsOf, load_windows_15m, dictGetD, dictFind] using h

/-! ### Properties of the per-load trace -/

/-- Every emitted window starts either at the inherited open start or at a
timestamp where the load is present. -/
lemma lwLoad_start_char (s3 : ℚ) :
    ∀ (l : List (ℚ × Bool)) (opt : Option ℚ), ∀ w ∈ lwLoad s3 l opt,
      (∃ st, opt = some st ∧ w.1 = st) ∨ (w.1, true) ∈ l := by
  intro l
  induction l with
  | nil => intro opt w hw; simp [lwLoad] at hw
  | cons p rest ih =>
    obtain ⟨t, b⟩ := p
    intro opt w hw
    cases rest with
    | nil =>
      cases b
      · cases opt with
        | none => simp [lwLoad] at hw
        | some st =>
          simp [lwLoad] at hw
          exact Or.inl ⟨st, rfl, by rw [hw]⟩
      · cases opt with
        | none =>
          simp [lwLoad] at hw
          exact Or.inr (by rw [hw]; exact List.mem_cons_self _ _)
        | some st =>
          simp [lwLoad] at hw
          exact Or.inl ⟨st, rfl, by rw [hw]⟩
    | cons q rest' =>
      cases b
      · cases opt with
        | none =>
          rw [show lwLoad s3 ((t, false) :: q :: rest') none
              = lwLoad s3 (q :: rest') none from rfl] at hw
          rcases ih _ w hw with ⟨st, hst, _⟩ | h
          · exact absurd hst (by simp)
          · exact Or.inr (List.mem_cons_of_mem _ h)
        | some st =>
          rw [show lwLoad s3 ((t, false) :: q :: rest') (some st)
              = (st, t) :: lwLoad s3 (q :: rest') none from rfl] at hw
          rcases List.mem_cons.mp hw with rfl | hw2
          · exact Or.inl ⟨st, rfl, rfl⟩
          · rcases ih _ w hw2 with ⟨st', hst', _⟩ | h
            · exact absurd hst' (by simp)
            · exact Or.inr (List.mem_cons_of_mem _ h)
      · cases opt with
        | none =>
          rw [show lwLoad s3 ((t, true) :: q :: rest') none
              = lwLoad s3 (q :: rest') (some t) from rfl] at hw
          rcases ih _ w hw with ⟨st, hst, hw1⟩ | h
          · obtain rfl : t = st := by injection hst
            exact Or.inr (by rw [hw1]; exact List.mem_cons_self _ _)
          · exact Or.inr (List.mem_cons_of_mem _ h)
        | some st =>
          rw [show lwLoad s3 ((t, true) :: q :: rest') (some st)
              = lwLoad s3 (q :: rest') (some st) from rfl] at hw
          rcases ih _ w hw with h | h
          · exact Or.inl h
          · exact Or.inr (List.mem_cons_of_mem _ h)

/-- Every emitted window ends either at some slot timestamp or at the final
timestamp plus the slot extension. -/
lemma lwLoad_end_char (s3 : ℚ) :
    ∀ (l : List (ℚ × Bool)) (opt : Option ℚ), ∀ w ∈ lwLoad s3 l opt,
      (∃ p ∈ l, w.2 = p.1) ∨ (∃ p, l.getLast? = some p ∧ w.2 = p.1 + s3) := by
  intro l
  induction l with
  | nil => intro opt w hw; simp [lwLoad] at hw
  | cons p rest ih =>
    obtain ⟨t, b⟩ := p
    intro opt w hw
    cases rest with
    | nil =>
      cases b
      · cases opt with
        | none => simp [lwLoad] at hw
        | some st =>
          simp [lwLoad] at hw
          exact Or.inl ⟨(t, false), List.mem_cons_self _ _, by rw [hw]⟩
      · cases opt with
        | none =>
          simp [lwLoad] at hw
          exact Or.inr ⟨(t, true), rfl, by rw [hw]⟩
        | some st =>
          simp [lwLoad] at hw
          exact Or.inr ⟨(t, true), rfl, by rw [hw]⟩
    | cons q rest' =>
      have hlast : (q :: rest').getLast? = ((t, b) :: q :: rest' :
          List (ℚ × Bool)).getLast? := by
        rw [List.getLast?_cons_cons]
      cases b
      · cases opt with
        | none =>
          rw [show lwLoad s3 ((t, false) :: q :: rest') none
              = lwLoad s3 (q :: rest') none from rfl] at hw
          rcases ih _ w hw with ⟨p, hp, he⟩ | ⟨p, hp, he⟩
          · exact Or.inl ⟨p, List.mem_cons_of_mem _ hp, he⟩
          · exact Or.inr ⟨p, by rw [← hlast]; exact hp, he⟩
        | some st =>
          rw [show lwLoad s3 ((t, false) :: q :: rest') (some st)
              = (st, t) :: lwLoad s3 (q :: rest') none from rfl] at hw
          rcases List.mem_cons.mp hw with rfl | hw2
          · exact Or.inl ⟨(t, false), List.mem_cons_self _ _, rfl⟩
          · rcases ih _ w hw2 with ⟨p, hp, he⟩ | ⟨p, hp, he⟩
            · exact Or.inl ⟨p, List.mem_cons_of_mem _ hp, he⟩
            · exact Or.inr ⟨p, by rw [← hlast]; exact hp, he⟩
      · cases opt with
        | none =>
          rw [show lwLoad s3 ((t, true) :: q :: rest') none
              = lwLoad s3 (q :: rest') (some t) from rfl] at hw
          rcases ih _ w hw with ⟨p, hp, he⟩ | ⟨p, hp, he⟩
          · exact Or.inl ⟨p, List.mem_cons_of_mem _ hp, he⟩
          · exact Or.inr ⟨p, by rw [← hlast]; exact hp, he⟩
        | some st =>
          rw [show lwLoad s3 ((t, true) :: q :: rest') (some st)
              = lwLoad s3 (q :: rest') (some st) from rfl] at hw
          rcases ih _ w hw with ⟨p, hp, he⟩ | ⟨p, hp, he⟩
          · exact Or.inl ⟨p, List.mem_cons_of_mem _ hp, he⟩
          · exact Or.inr ⟨p, by rw [← hlast]; exact hp, he⟩

/-- With an inherited open start, the first emitted window starts exactly
there. -/
lemma lwLoad_head (s3 : ℚ) :
    ∀ (l : List (ℚ × Bool)) (st : ℚ), l ≠ [] →
      ∃ e, (lwLoad s3 l (some st)).head? = some (st, e) := by
  intro l
  induction l with
  | nil => intro st h; exact absurd rfl h
  | cons p rest ih =>
    obtain ⟨t, b⟩ := p
    intro st _
    cases rest with
    | nil =>
      cases b
      · exact ⟨t, rfl⟩
      · exact ⟨t + s3, rfl⟩
    | cons q rest' =>
      cases b
      · exact ⟨t, rfl⟩
      · rw [show lwLoad s3 ((t, true) :: q :: rest') (some st)
            = lwLoad s3 (q :: rest') (some st) from rfl]
        exact ih st (by simp)

/-- With an inherited open start and a nonempty trace, something is emitted. -/
lemma lwLoad_ne_nil_some (s3 : ℚ) (l : List (ℚ × Bool)) (st : ℚ) (h : l ≠ []) :
    lwLoad s3 l (some st) ≠ [] := by
  obtain ⟨e, he⟩ := lwLoad_head s3 l st h
  intro hnil
  rw [hnil] at he
  simp at he

/-- Starting closed, the trace emits nothing iff the load is never present. -/
lemma lwLoad_nil_iff (s3 : ℚ) :
    ∀ l : List (ℚ × Bool), (lwLoad s3 l none = [] ↔ ∀ p ∈ l, p.2 = false) := by
  intro l
  induction l with
  | nil => simp [lwLoad]
  | cons p rest ih =>
    obtain ⟨t, b⟩ := p
    cases rest with
    | nil =>
      cases b
      · simp [lwLoad]
      · simp [lwLoad]
    | cons q rest' =>
      cases b
      · rw [show lwLoad s3 ((t, false) :: q :: rest') none
            = lwLoad s3 (q :: rest') none from rfl, ih]
        simp
      · rw [show lwLoad s3 ((t, true) :: q :: rest') none
            = lwLoad s3 (q :: rest') (some t) from rfl]
        constructor
        · intro h
          exact absurd h (lwLoad_ne_nil_some s3 (q :: rest') t (by simp))
        · intro h
          exact absurd (h (t, true) (List.mem_cons_self _ _)) (by simp)

/-- Under strictly increasing timestamps (and an open start preceding all of
them), every emitted window has positive extent. -/
lemma lwLoad_mem_lt (s3 : ℚ) (hs3 : 0 < s3) :
    ∀ (l : List (ℚ × Bool)) (opt : Option ℚ),
      List.Pairwise (fun p q : ℚ × Bool => p.1 < q.1) l →
      (∀ st, opt = some st → ∀ p ∈ l, st < p.1) →
      ∀ w ∈ lwLoad s3 l opt, w.1 < w.2 := by
  intro l
  induction l with
  | nil => intro opt _ _ w hw; simp [lwLoad] at hw
  | cons p rest ih =>
    obtain ⟨t, b⟩ := p
    intro opt hsort hopt w hw
    have hsort' : List.Pairwise (fun p q : ℚ × Bool => p.1 < q.1) rest :=
      hsort.of_cons
    have hhead : ∀ p ∈ rest, t < p.1 := (List.pairwise_cons.mp hsort).1
    cases rest with
    | nil =>
      cases b
      · cases opt with
        | none => simp [lwLoad] at hw
        | some st =>
          simp [lwLoad] at hw
          rw [hw]
          exact hopt st rfl (t, false) (List.mem_cons_self _ _)
      · cases opt with
        | none =>
          simp [lwLoad] at hw
          rw [hw]
          simpa using hs3
        | some st =>
          simp [lwLoad] at hw
          rw [hw]
          have h1 : st < t := hopt st rfl (t, true) (List.mem_cons_self _ _)
          have : (0 : ℚ) < s3 := hs3
          show st < t + s3
          linarith
    | cons q rest' =>
      cases b
      · cases opt with
        | none =>
          rw [show lwLoad s3 ((t, false) :: q :: rest') none
              = lwLoad s3 (q :: rest') none from rfl] at hw
          exact ih none hsort' (by intro st hst p hp; exact absurd hst (by simp)) w hw
        | some st =>
          rw [show lwLoad s3 ((t, false) :: q :: rest') (some st)
              = (st, t) :: lwLoad s3 (q :: rest') none from rfl] at hw
          rcases List.mem_cons.mp hw with rfl | hw2
          · exact hopt st rfl (t, false) (List.mem_cons_self _ _)
          · exact ih none hsort'
              (by intro st' hst' p hp; exact absurd hst' (by simp)) w hw2
      · cases opt with
        | none =>
          rw [show lwLoad s3 ((t, true) :: q :: rest') none
              = lwLoad s3 (q :: rest') (some t) from rfl] at hw
          refine ih (some t) hsort' ?_ w hw
          intro st' hst' p hp
          obtain rfl : t = st' := by injection hst'
          exact hhead p hp
        | some st =>
          rw [show lwLoad s3 ((t, true) :: q :: rest') (some st)
              = lwLoad s3 (q :: rest') (some st) from rfl] at hw
          refine ih (some st) hsort' ?_ w hw
          intro st' hst' p hp
          obtain rfl : st = st' := by injection hst'
          exact hopt st rfl p (List.mem_cons_of_mem _ hp)

lemma mem_of_getLast?_eq {α : Type} (l : List α) (a : α) (h : l.getLast? = some a) :
    a ∈ l := by
  have hx : a ∈ l.getLast? := Option.mem_def.mpr h
  obtain ⟨hne, rfl⟩ := List.mem_getLast?_eq_getLast hx
  exact List.getLast_mem hne

/-- Under strictly increasing timestamps, consecutive emitted windows do not
overlap: each closes no later than the next opens. -/
lemma lwLoad_chain (s3 : ℚ) :
    ∀ (l : List (ℚ × Bool)) (opt : Option ℚ),
      List.Pairwise (fun p q : ℚ × Bool => p.1 < q.1) l →
      (∀ st, opt = some st → ∀ p ∈ l, st < p.1) →
      List.Chain' (fun u v : ℚ × ℚ => u.2 ≤ v.1) (lwLoad s3 l opt) := by
  intro l
  induction l with
  | nil => intro opt _ _; simp [lwLoad]
  | cons p rest ih =>
    obtain ⟨t, b⟩ := p
    intro opt hsort hopt
    have hsort' : List.Pairwise (fun p q : ℚ × Bool => p.1 < q.1) rest :=
      hsort.of_cons
    have hhead : ∀ p ∈ rest, t < p.1 := (List.pairwise_cons.mp hsort).1
    cases rest with
    | nil =>
      cases b <;> cases opt <;> simp [lwLoad]
    | cons q rest' =>
      cases b
      · cases opt with
        | none =>
          rw [show lwLoad s3 ((t, false) :: q :: rest') none
              = lwLoad s3 (q :: rest') none from rfl]
          exact ih none hsort' (by intro st hst p hp; exact absurd hst (by simp))
        | some st =>
          rw [show lwLoad s3 ((t, false) :: q :: rest') (some st)
              = (st, t) :: lwLoad s3 (q :: rest') none from rfl]
          refine List.chain'_cons'.mpr ⟨?_, ih none hsort'
            (by intro st' hst' p hp; exact absurd hst' (by simp))⟩
          intro w hw
          have hmem : w ∈ lwLoad s3 (q :: rest') none := List.mem_of_mem_head? hw
          rcases lwLoad_start_char s3 _ none w hmem with ⟨st', hst', _⟩ | h
          · exact absurd hst' (by simp)
          · exact le_of_lt (hhead (w.1, true) h)
      · cases opt with
        | none =>
          rw [show lwLoad s3 ((t, true) :: q :: rest') none
              = lwLoad s3 (q :: rest') (some t) from rfl]
          refine ih (some t) hsort' ?_
          intro st' hst' p hp
          obtain rfl : t = st' := by injection hst'
          exact hhead p hp
        | some st =>
          rw [show lwLoad s3 ((t, true) :: q :: rest') (some st)
              = lwLoad s3 (q :: rest') (some st) from rfl]
          refine ih (some st) hsort' ?_
          intro st' hst' p hp
          obtain rfl : st = st' := by injection hst'
          exact hopt st rfl p (List.mem_cons_of_mem _ hp)

/-- Under strictly increasing timestamps, every slot where the load is
present is covered by some emitted window. -/
lemma lwLoad_cover (s3 : ℚ) (hs3 : 0 < s3) :
    ∀ (l : List (ℚ × Bool)) (opt : Option ℚ),
      List.Pairwise (fun p q : ℚ × Bool => p.1 < q.1) l →
      (∀ st, opt = some st → ∀ p ∈ l, st < p.1) →
      ∀ p ∈ l, p.2 = true → ∃ w ∈ lwLoad s3 l opt, w.1 ≤ p.1 ∧ p.1 < w.2 := by
  intro l
  induction l with
  | nil => intro opt _ _ p hp; simp at hp
  | cons hd rest ih =>
    obtain ⟨t, b⟩ := hd
    intro opt hsort hopt p hp hptrue
    have hsort' : List.Pairwise (fun p q : ℚ × Bool => p.1 < q.1) rest :=
      hsort.of_cons
    have hhead : ∀ p ∈ rest, t < p.1 := (List.pairwise_cons.mp hsort).1
    cases rest with
    | nil =>
      rcases List.mem_cons.mp hp with rfl | hp2
      · simp only at hptrue
        subst hptrue
        cases opt with
        | none =>
          exact ⟨(t, t + s3), by simp [lwLoad], le_refl t,
            by show (t : ℚ) < t + s3; linarith⟩
        | some st =>
          have h1 : st < t := hopt st rfl (t, true) (List.mem_cons_self _ _)
          exact ⟨(st, t + s3), by simp [lwLoad], le_of_lt h1,
            by show (t : ℚ) < t + s3; linarith⟩
      · simp at hp2
    | cons q rest' =>
      rcases List.mem_cons.mp hp with rfl | hp2
      · simp only at hptrue
        subst hptrue
        cases opt with
        | none =>
          rw [show lwLoad s3 ((t, true) :: q :: rest') none
              = lwLoad s3 (q :: rest') (some t) from rfl]
          obtain ⟨e, hhd⟩ := lwLoad_head s3 (q :: rest') t (by simp)
          have hmem : (t, e) ∈ lwLoad s3 (q :: rest') (some t) :=
            List.mem_of_mem_head? (by rw [hhd]; rfl)
          refine ⟨(t, e), hmem, le_refl t, ?_⟩
          rcases lwLoad_end_char s3 _ _ _ hmem with ⟨p', hp', he⟩ | ⟨p', hp', he⟩
          · rw [he]
            exact hhead p' hp'
          · rw [he]
            have : t < p'.1 := hhead p' (mem_of_getLast?_eq _ _ hp')
            linarith
        | some st =>
          rw [show lwLoad s3 ((t, true) :: q :: rest') (some st)
              = lwLoad s3 (q :: rest') (some st) from rfl]
          obtain ⟨e, hhd⟩ := lwLoad_head s3 (q :: rest') st (by simp)
          have hmem : (st, e) ∈ lwLoad s3 (q :: rest') (some st) :=
            List.mem_of_mem_head? (by rw [hhd]; rfl)
          have h1 : st < t := hopt st rfl (t, true) (List.mem_cons_self _ _)
          refine ⟨(st, e), hmem, le_of_lt h1, ?_⟩
          rcases lwLoad_end_char s3 _ _ _ hmem with ⟨p', hp', he⟩ | ⟨p', hp', he⟩
          · rw [he]
            exact hhead p' hp'
          · rw [he]
            have : t < p'.1 := hhead p' (mem_of_getLast?_eq _ _ hp')
            linarith
      · cases b
        · cases opt with
          | none =>
            rw [show lwLoad s3 ((t, false) :: q :: rest') none
                = lwLoad s3 (q :: rest') none from rfl]
            exact ih none hsort'
              (by intro st hst p' hp'; exact absurd hst (by simp)) p hp2 hptrue
          | some st =>
            rw [show lwLoad s3 ((t, false) :: q :: rest') (some st)
                = (st, t) :: lwLoad s3 (q :: rest') none from rfl]
            obtain ⟨w, hw, hb⟩ := ih none hsort'
              (by intro st' hst' p' hp'; exact absurd hst' (by simp)) p hp2 hptrue
            exact ⟨w, List.mem_cons_of_mem _ hw, hb⟩
        · cases opt with
          | none =>
            rw [show lwLoad s3 ((t, true) :: q :: rest') none
                = lwLoad s3 (q :: rest') (some t) from rfl]
            refine ih (some t) hsort' ?_ p hp2 hptrue
            intro st' hst' p' hp'
            obtain rfl : t = st' := by injection hst'
            exact hhead p' hp'
          | some st =>
            rw [show lwLoad s3 ((t, true) :: q :: rest') (some st)
                = lwLoad s3 (q :: rest') (some st) from rfl]
            refine ih (some st) hsort' ?_ p hp2 hptrue
            intro st' hst' p' hp'
            obtain rfl : st = st' := by injection hst'
            exact hopt st rfl p' (List.mem_cons_of_mem _ hp')

/-- Under strictly increasing timestamps, no emitted window covers a slot
where the load is absent. -/
lemma lwLoad_not_cover (s3 : ℚ) :
    ∀ (l : List (ℚ × Bool)) (opt : Option ℚ),
      List.Pairwise (fun p q : ℚ × Bool => p.1 < q.1) l →
      (∀ st, opt = some st → ∀ p ∈ l, st < p.1) →
      ∀ p ∈ l, p.2 = false → ∀ w ∈ lwLoad s3 l opt,
        ¬(w.1 ≤ p.1 ∧ p.1 < w.2) := by
  intro l
  induction l with
  | nil => intro opt _ _ p hp; simp at hp
  | cons hd rest ih =>
    obtain ⟨t, b⟩ := hd
    intro opt hsort hopt p hp hpfalse w hw
    have hsort' : List.Pairwise (fun p q : ℚ × Bool => p.1 < q.1) rest :=
      hsort.of_cons
    have hhead : ∀ p ∈ rest, t < p.1 := (List.pairwise_cons.mp hsort).1
    cases rest with
    | nil =>
      rcases List.mem_cons.mp hp with rfl | hp2
      · simp only at hpfalse
        subst hpfalse
        cases opt with
        | none => simp [lwLoad] at hw
        | some st =>
          simp [lwLoad] at hw
          rw [hw]
          rintro ⟨_, hlt⟩
          exact lt_irrefl t hlt
      · simp at hp2
    | cons q rest' =>
      rcases List.mem_cons.mp hp with rfl | hp2
      · simp only at hpfalse
        subst hpfalse
        cases opt with
        | none =>
          rw [show lwLoad s3 ((t, false) :: q :: rest') none
              = lwLoad s3 (q :: rest') none from rfl] at hw
          rcases lwLoad_start_char s3 _ none w hw with ⟨st', hst', _⟩ | h
          · exact absurd hst' (by simp)
          · rintro ⟨hle, _⟩
            exact absurd hle (not_le.mpr (hhead (w.1, true) h))
        | some st =>
          rw [show lwLoad s3 ((t, false) :: q :: rest') (some st)
              = (st, t) :: lwLoad s3 (q :: rest') none from rfl] at hw
          rcases List.mem_cons.mp hw with rfl | hw2
          · rintro ⟨_, hlt⟩
            exact lt_irrefl t hlt
          · rcases lwLoad_start_char s3 _ none w hw2 with ⟨st', hst', _⟩ | h
            · exact absurd hst' (by simp)
            · rintro ⟨hle, _⟩
              exact absurd hle (not_le.mpr (hhead (w.1, true) h))
      · cases b
        · cases opt with
          | none =>
            rw [show lwLoad s3 ((t, false) :: q :: rest') none
                = lwLoad s3 (q :: rest') none from rfl] at hw
            exact ih none hsort'
              (by intro st hst p' hp'; exact absurd hst (by simp)) p hp2 hpfalse w hw
          | some st =>
            rw [show lwLoad s3 ((t, false) :: q :: rest') (some st)
                = (st, t) :: lwLoad s3 (q :: rest') none from rfl] at hw
            rcases List.mem_cons.mp hw with rfl | hw2
            · rintro ⟨_, hlt⟩
              have : t < p.1 := hhead p hp2
              simp only at hlt
              linarith
            · exact ih none hsort'
                (by intro st' hst' p' hp'; exact absurd hst' (by simp))
                p hp2 hpfalse w hw2
        · cases opt with
          | none =>
            rw [show lwLoad s3 ((t, true) :: q :: rest') none
                = lwLoad s3 (q :: rest') (some t) from rfl] at hw
            refine ih (some t) hsort' ?_ p hp2 hpfalse w hw
            intro st' hst' p' hp'
            obtain rfl : t = st' := by injection hst'
            exact hhead p' hp'
          | some st =>
            rw [show lwLoad s3 ((t, true) :: q :: rest') (some st)
                = lwLoad s3 (q :: rest') (some st) from rfl] at hw
            refine ih (some st) hsort' ?_ p hp2 hpfalse w hw
            intro st' hst' p' hp'
            obtain rfl : st = st' := by injection hst'
            exact hopt st rfl p' (List.mem_cons_of_mem _ hp')

/-- If the trace ends in a present slot, the last emitted window closes at
that slot's timestamp plus the extension. -/
lemma lwLoad_getLast (s3 : ℚ) :
    ∀ (l : List (ℚ × Bool)) (opt : Option ℚ) (t : ℚ),
      l.getLast? = some (t, true) →
      ∃ st, (lwLoad s3 l opt).getLast? = some (st, t + s3) := by
  intro l
  induction l with
  | nil => intro opt t hlast; simp at hlast
  | cons hd rest ih =>
    obtain ⟨t0, b⟩ := hd
    intro opt t hlast
    cases rest with
    | nil =>
      simp only [List.getLast?_singleton, Option.some.injEq, Prod.mk.injEq] at hlast
      obtain ⟨rfl, rfl⟩ := hlast
      cases opt with
      | none => exact ⟨t0, rfl⟩
      | some st => exact ⟨st, rfl⟩
    | cons q rest' =>
      rw [List.getLast?_cons_cons] at hlast
      cases b
      · cases opt with
        | none =>
          rw [show lwLoad s3 ((t0, false) :: q :: rest') none
              = lwLoad s3 (q :: rest') none from rfl]
          exact ih none t hlast
        | some st =>
          rw [show lwLoad s3 ((t0, false) :: q :: rest') (some st)
              = (st, t0) :: lwLoad s3 (q :: rest') none from rfl]
          obtain ⟨st', hl⟩ := ih none t hlast
          cases hxs : lwLoad s3 (q :: rest') none with
          | nil => rw [hxs] at hl; simp at hl
          | cons y ys =>
            rw [hxs] at hl
            exact ⟨st', by rw [List.getLast?_cons_cons]; exact hl⟩
      · cases opt with
        | none =>
          rw [show lwLoad s3 ((t0, true) :: q :: rest') none
              = lwLoad s3 (q :: rest') (some t0) from rfl]
          exact ih (some t0) t hlast
        | some st =>
          rw [show lwLoad s3 ((t0, true) :: q :: rest') (some st)
              = lwLoad s3 (q :: rest') (some st) from rfl]
          exact ih (some st) t hlast

/-- A load absent everywhere except the final slot yields exactly one
window, one extension long. -/
lemma lwLoad_all_absent (s3 : ℚ) :
    ∀ (init : List (ℚ × Bool)) (t : ℚ),
      (∀ p ∈ init, p.2 = false) →
      lwLoad s3 (init ++ [(t, true)]) none = [(t, t + s3)] := by
  intro init
  induction init with
  | nil => intro t _; rfl
  | cons hd init' ih =>
    obtain ⟨t0, b0⟩ := hd
    intro t hall
    have hb0 : b0 = false := hall (t0, b0) (List.mem_cons_self _ _)
    subst hb0
    cases hshape : init' ++ [(t, true)] with
    | nil => exact absurd hshape (by simp)
    | cons y ys =>
      rw [List.cons_append, hshape,
        show lwLoad s3 ((t0, false) :: y :: ys) none
          = lwLoad s3 (y :: ys) none from rfl, ← hshape]
      exact ih t fun p hp => hall p (List.mem_cons_of_mem _ hp)

/-- Non-overlap plus positive extent gives strictly increasing starts. -/
lemma chain_start_lt (ws : List (ℚ × ℚ)) (hmem : ∀ w ∈ ws, w.1 < w.2)
    (hch : List.Chain' (fun u v : ℚ × ℚ => u.2 ≤ v.1) ws) :
    List.Chain' (fun u v : ℚ × ℚ => u.1 < v.1) ws := by
  induction ws with
  | nil => simp
  | cons w ws ih =>
    rw [List.chain'_cons'] at hch ⊢
    refine ⟨?_, ih (fun w' hw' => hmem w' (List.mem_cons_of_mem _ hw')) hch.2⟩
    intro y hy
    have h1 := hch.1 y hy
    have h2 := hmem w (List.mem_cons_self _ _)
    linarith

lemma dictFind_some_mem {α β : Type} [DecidableEq α] (m : List (α × β)) (k : α) (v : β)
    (h : dictFind m k = some v) : (k, v) ∈ m := by
  induction m with
  | nil => simp [dictFind] at h
  | cons p m ih =>
    rw [dictFind] at h
    by_cases hpk : p.1 = k
    · rw [if_pos hpk] at h
      have hv : p.2 = v := by injection h
      have hp : p = (k, v) := by
        obtain ⟨pa, pb⟩ := p
        simp only at hpk hv
        rw [hpk, hv]
      rw [hp] at *
      exact List.mem_cons_self _ _
    · rw [if_neg hpk] at h
      exact List.mem_cons_of_mem _ (ih h)

lemma wAppend_values_ne_nil (w : List (String × List (ℚ × ℚ))) (n : String)
    (v : ℚ × ℚ) (h : ∀ p ∈ w, p.2 ≠ []) : ∀ p ∈ wAppend w n v, p.2 ≠ [] := by
  induction w with
  | nil =>
    intro p hp
    rw [wAppend] at hp
    rcases List.mem_singleton.mp hp with rfl
    simp
  | cons q w ih =>
    intro p hp
    rw [wAppend] at hp
    by_cases hq : q.1 = n
    · rw [if_pos hq] at hp
      rcases List.mem_cons.mp hp with rfl | hp2
      · simp
      · exact h p (List.mem_cons_of_mem _ hp2)
    · rw [if_neg hq] at hp
      rcases List.mem_cons.mp hp with rfl | hp2
      · exact h p (List.mem_cons_self _ _)
      · exact ih (fun p' hp' => h p' (List.mem_cons_of_mem _ hp')) p hp2

lemma closeAll_values_ne_nil (ts : ℚ) (cl : List (String × ℚ)) :
    ∀ w : List (String × List (ℚ × ℚ)), (∀ p ∈ w, p.2 ≠ []) →
      ∀ p ∈ closeAll ts cl w, p.2 ≠ [] := by
  induction cl with
  | nil => intro w h p hp; exact h p hp
  | cons q cl ih =>
    intro w h p hp
    rw [closeAll] at hp
    exact ih _ (wAppend_values_ne_nil _ _ _ h) p hp

lemma lw_aux_values_ne_nil (sH : ℚ) :
    ∀ (slots : List ScheduleSlot) (w : List (String × List (ℚ × ℚ)))
      (a : List (String × ℚ)), (∀ p ∈ w, p.2 ≠ []) →
      ∀ p ∈ lw_aux sH slots w a, p.2 ≠ [] := by
  intro slots
  induction slots with
  | nil => intro w a h p hp; exact h p hp
  | cons slot rest ih =>
    intro w a h p hp
    cases rest with
    | nil =>
      rw [show lw_aux sH [slot] w a
          = closeAll (slot.timestamp + sH * 3600)
              (openPhase slot.timestamp slot.data (stillOpen (names slot.data) a))
              (closeAll slot.timestamp (toClose (names slot.data) a) w) from rfl] at hp
      exact closeAll_values_ne_nil _ _ _
        (closeAll_values_ne_nil _ _ _ h) p hp
    | cons q rest' =>
      rw [show lw_aux sH (slot :: q :: rest') w a
          = lw_aux sH (q :: rest')
              (closeAll slot.timestamp (toClose (names slot.data) a) w)
              (openPhase slot.timestamp slot.data (stillOpen (names slot.data) a))
          from rfl] at hp
      exact ih _ _ (closeAll_values_ne_nil _ _ _ h) p hp

/-! ### Window coverage and monotonicity (C2 amended), final-slot close (C4),
key domain (C10) -/

/-- C2 amended: for every schedule with strictly increasing timestamps and
every load, the emitted windows have positive extent, strictly increasing
starts, and are non-overlapping; and a slot timestamp lies inside some window
(with the final window closed at `last + slot_h`) exactly when the load is
present in that slot. -/
theorem window_coverage_amended (payload : List ScheduleSlot)
    (hsort : List.Pairwise
      (fun a b : ScheduleSlot => a.timestamp < b.timestamp) payload)
    (n : String) :
    (∀ w ∈ winsOf payload n, w.1 < w.2) ∧
    List.Chain' (fun u v : ℚ × ℚ => u.1 < v.1) (winsOf payload n) ∧
    List.Chain' (fun u v : ℚ × ℚ => u.2 ≤ v.1) (winsOf payload n) ∧
    (∀ slot ∈ payload, (presentB slot n = true ↔
      ∃ w ∈ winsOf payload n, w.1 ≤ slot.timestamp ∧ slot.timestamp < w.2)) := by
  have hs3 : 0 < _guess_slot_hours payload * 3600 :=
    mul_pos (guess_slot_hours_pos payload) (by norm_num)
  have hproj : List.Pairwise (fun p q : ℚ × Bool => p.1 < q.1)
      (payload.map (projL n)) :=
    List.pairwise_map.mpr (hsort.imp fun h => h)
  have hopt : ∀ st : ℚ, (none : Option ℚ) = some st →
      ∀ p ∈ payload.map (projL n), st < p.1 := by
    intro st hst
    exact absurd hst (by simp)
  rw [winsOf_eq_lwLoad]
  refine ⟨lwLoad_mem_lt _ hs3 _ none hproj hopt, ?_,
    lwLoad_chain _ _ none hproj hopt, ?_⟩
  · exact chain_start_lt _ (lwLoad_mem_lt _ hs3 _ none hproj hopt)
      (lwLoad_chain _ _ none hproj hopt)
  · intro slot hmem
    constructor
    · intro hpres
      have hp : projL n slot ∈ payload.map (projL n) :=
        List.mem_map_of_mem _ hmem
      obtain ⟨w, hw, hb⟩ :=
        lwLoad_cover _ hs3 _ none hproj hopt (projL n slot) hp hpres
      exact ⟨w, hw, hb⟩
    · rintro ⟨w, hw, hb⟩
      by_contra hpres
      have hfalse : presentB slot n = false := by
        cases h : presentB slot n
        · rfl
        · exact absurd h hpres
      have hp : projL n slot ∈ payload.map (projL n) :=
        List.mem_map_of_mem _ hmem
      exact lwLoad_not_cover _ _ none hproj hopt (projL n slot) hp hfalse w hw hb

/-- Witness for C2's amended coverage: in the gap schedule, slot instant `0`
(where load `a` is present) is covered by one of its windows. -/
theorem window_coverage_amended_witness :
    ∃ w ∈ winsOf exGap "a",
      w.1 ≤ (⟨0, [⟨"a", 1⟩]⟩ : ScheduleSlot).timestamp ∧
      (⟨0, [⟨"a", 1⟩]⟩ : ScheduleSlot).timestamp < w.2 :=
  ((window_coverage_amended exGap
      (by norm_num [exGap, List.pairwise_cons]) "a").2.2.2
    ⟨0, [⟨"a", 1⟩]⟩ (by norm_num [exGap])).mp
    (by norm_num [presentB, names, memStr])

/-- C4: for every non-empty schedule, a load present in the final slot has
its last window closed at `last_timestamp + slot_h`; in particular a load
present only in the final slot yields exactly one window spanning exactly
one slot duration. -/
theorem final_slot_close (payload init : List ScheduleSlot) (last : ScheduleSlot)
    (hsplit : payload = init ++ [last]) (n : String) :
    (presentB last n = true →
      ∃ st, (winsOf payload n).getLast?
        = some (st, last.timestamp + _guess_slot_hours payload * 3600)) ∧
    (presentB last n = true → (∀ sl ∈ init, presentB sl n = false) →
      winsOf payload n
        = [(last.timestamp, last.timestamp + _guess_slot_hours payload * 3600)]) := by
  rw [winsOf_eq_lwLoad]
  constructor
  · intro hpres
    apply lwLoad_getLast
    rw [hsplit, List.map_append]
    rw [show List.map (projL n) [last] = [(last.timestamp, true)] from by
      simp [projL, hpres]]
    exact List.getLast?_concat _
  · intro hpres hinit
    rw [hsplit, List.map_append]
    rw [show List.map (projL n) [last] = [(last.timestamp, true)] from by
      simp [projL, hpres]]
    apply lwLoad_all_absent
    intro p hp
    obtain ⟨sl, hsl, rfl⟩ := List.mem_map.mp hp
    exact hinit sl hsl

/-- Witness for C4 at the schedule whose load `a` appears only in the final
slot: exactly one window of exactly one slot duration. -/
theorem final_slot_close_witness :
    winsOf exC4 "a"
      = [(exC4last.timestamp, exC4last.timestamp + _guess_slot_hours exC4 * 3600)] :=
  (final_slot_close exC4 [⟨0, []⟩] exC4last rfl "a").2
    (by norm_num [presentB, exC4last, names, memStr])
    (by
      intro sl hsl
      rw [List.mem_singleton] at hsl
      subst hsl
      rfl)

/-- C10: the window mapping has a key for a load iff that load is present in
at least one slot, and every key maps to a non-empty window list. -/
theorem windows_key_domain (payload : List ScheduleSlot) (n : String) :
    (n ∈ dictKeys (load_windows_15m payload) ↔
      ∃ slot ∈ payload, presentB slot n = true) ∧
    (∀ p ∈ load_windows_15m payload, p.2 ≠ []) := by
  have hvals : ∀ p ∈ load_windows_15m payload, p.2 ≠ [] :=
    lw_aux_values_ne_nil _ payload [] [] (by intro p hp; simp at hp)
  refine ⟨?_, hvals⟩
  have hwins : winsOf payload n
      = lwLoad (_guess_slot_hours payload * 3600) (payload.map (projL n)) none :=
    winsOf_eq_lwLoad payload n
  constructor
  · intro hk
    obtain ⟨v, hv⟩ := dictFind_isSome_of_mem_keys _ _ hk
    have hmem : (n, v) ∈ load_windows_15m payload := dictFind_some_mem _ _ _ hv
    have hne : v ≠ [] := hvals (n, v) hmem
    have hgd : winsOf payload n = v := by
      rw [winsOf, dictGetD, hv]
      rfl
    have hlw : lwLoad (_guess_slot_hours payload * 3600)
        (payload.map (projL n)) none ≠ [] := by
      rw [← hwins, hgd]
      exact hne
    have hnot : ¬∀ p ∈ payload.map (projL n), p.2 = false :=
      fun hall => hlw ((lwLoad_nil_iff _ _).mpr hall)
    push_neg at hnot
    obtain ⟨p, hp, hpne⟩ := hnot
    obtain ⟨slot, hslot, rfl⟩ := List.mem_map.mp hp
    refine ⟨slot, hslot, ?_⟩
    cases h : presentB slot n
    · exact absurd h hpne
    · rfl
  · rintro ⟨slot, hslot, hpres⟩
    have hlw : lwLoad (_guess_slot_hours payload * 3600)
        (payload.map (projL n)) none ≠ [] := by
      intro hnil
      have hall := (lwLoad_nil_iff _ _).mp hnil
      have := hall (projL n slot) (List.mem_map_of_mem _ hslot)
      rw [show (projL n slot).2 = presentB slot n from rfl, hpres] at this
      exact absurd this (by simp)
    have hgd : winsOf payload n ≠ [] := by
      rw [hwins]
      exact hlw
    rw [winsOf, dictGetD] at hgd
    cases hv : dictFind (load_windows_15m payload) n with
    | none => rw [hv] at hgd; simp at hgd
    | some v =>
      exact mem_dictKeys_of_mem _ _ _ (dictFind_some_mem _ _ _ hv)

/-- Witness for C10: the oven has a key in the window mapping of the oven
schedule. -/
theorem windows_key_domain_witness :
    "oven" ∈ dictKeys (load_windows_15m exA) :=
  (windows_key_domain exA "oven").1.mpr
    ⟨exAs0, by norm_num [exA], by norm_num [presentB, exAs0, names, memStr]⟩

/-! ### Display formatting (C8) -/

lemma pad2_eq_specPad2 : ∀ n : ℕ, n < 100 → pad2 n = specPad2 n := by decide

lemma specPad2_len : ∀ n : ℕ, n < 100 → (specPad2 n).length = 2 := by decide

lemma hourOfTs_lt (t : ℚ) : hourOfTs t < 24 := by
  have h1 := hourOfKey_nonneg ⌊t⌋
  have h2 := hourOfKey_lt ⌊t⌋
  unfold hourOfTs
  omega

lemma minuteOfTs_lt (t : ℚ) : minuteOfTs t < 60 := by
  unfold minuteOfTs
  omega

/-- C8: each window renders as `HHhMM–HHhMM` with two-digit zero-padded
24-hour fields and an en-dash, and the rendered windows are joined as:
one window alone, two windows with the localized "and" (`" e "`), three or
more comma-joined with a final `" e "` before the last. -/
theorem fmt_windows_spec (win : List (String × List (ℚ × ℚ))) (name : String)
    (hne : rangesOf win name ≠ []) :
    (∀ w ∈ dictGetD win name [],
      fmt_range_pt w.1 w.2
        = specPad2 (hourOfTs w.1) ++ "h" ++ specPad2 (minuteOfTs w.1) ++ "–"
          ++ specPad2 (hourOfTs w.2) ++ "h" ++ specPad2 (minuteOfTs w.2)
      ∧ hourOfTs w.1 < 24 ∧ minuteOfTs w.1 < 60
      ∧ hourOfTs w.2 < 24 ∧ minuteOfTs w.2 < 60
      ∧ (specPad2 (hourOfTs w.1)).length = 2
      ∧ (specPad2 (minuteOfTs w.1)).length = 2
      ∧ (specPad2 (hourOfTs w.2)).length = 2
      ∧ (specPad2 (minuteOfTs w.2)).length = 2) ∧
    (∀ r : String, rangesOf win name = [r] → fmt_windows win name = r) ∧
    (∀ r1 r2 : String, rangesOf win name = [r1, r2] →
      fmt_windows win name = r1 ++ " e " ++ r2) ∧
    (2 < (rangesOf win name).length →
      fmt_windows win name
        = String.intercalate ", " (rangesOf win name).dropLast ++ " e "
          ++ ((rangesOf win name).getLast?.getD "")) := by
  refine ⟨?_, ?_, ?_, ?_⟩
  · intro w _
    have hh1 := hourOfTs_lt w.1
    have hm1 := minuteOfTs_lt w.1
    have hh2 := hourOfTs_lt w.2
    have hm2 := minuteOfTs_lt w.2
    refine ⟨?_, hh1, hm1, hh2, hm2,
      specPad2_len _ (by omega), specPad2_len _ (by omega),
      specPad2_len _ (by omega), specPad2_len _ (by omega)⟩
    rw [fmt_range_pt,
      pad2_eq_specPad2 _ (by omega), pad2_eq_specPad2 _ (by omega),
      pad2_eq_specPad2 _ (by omega), pad2_eq_specPad2 _ (by omega)]
  · intro r hr
    rw [fmt_windows, hr]
  · intro r1 r2 hr
    rw [fmt_windows, hr]
  · intro hlen
    rcases hrs : rangesOf win name with _ | ⟨r1, rest1⟩
    · rw [hrs] at hlen; simp at hlen
    rcases rest1 with _ | ⟨r2, rest2⟩
    · rw [hrs] at hlen; simp at hlen
    rcases rest2 with _ | ⟨r3, rs⟩
    · rw [hrs] at hlen; simp at hlen
    rw [fmt_windows, hrs]
    have hlast : (r1 :: r2 :: r3 :: rs).getLast?.getD ""
        = (r1 :: r2 :: r3 :: rs).getLast (by simp) := by
      rw [List.getLast?_eq_getLast_of_ne_nil (by simp)]
      rfl
    rw [hlast]

/-- Witness for C8 at the gap schedule: two windows joined with `" e "`. -/
theorem fmt_windows_spec_witness :
    fmt_windows (load_windows_15m exGap) "a"
      = fmt_range_pt 0 900 ++ " e " ++ fmt_range_pt 1800 2700 := by
  have hcomp : rangesOf (load_windows_15m exGap) "a"
      = [fmt_range_pt 0 900, fmt_range_pt 1800 2700] := by
    norm_num [rangesOf, load_windows_15m, lw_aux, _guess_slot_hours, exGap, names,
      stillOpen, toClose, openPhase, closeAll, wAppend, dictMem, dictGetD, dictFind,
      memStr]
  exact (fmt_windows_spec (load_windows_15m exGap) "a"
      (by rw [hcomp]; simp)).2.2.1
    (fmt_range_pt 0 900) (fmt_range_pt 1800 2700) hcomp

end Gloiu
